import Mathlib

/-!
Verification development for the EBC (Emergency Bitcoin Cut-Over) extension of
the bitcoin codebase: the post-quantum address codec (ebc/ebc_address.cpp,
ebc/ebc_address.h), the post-quantum key/signature classes
(crypto/pq/pq_keys.h, crypto/pq/pq_keys.cpp), the EBC consensus parameters
(chainparams_ebc.cpp) and the phase machinery described by the specification.

Modelling conventions:
- C++ byte vectors (std::vector of unsigned char) and std::string values are
  modelled as List Nat of byte values; the C++ types guarantee elements < 256,
  which appears as an explicit hypothesis where a theorem needs it.
- C++ scoped enumerations that the code populates by static_cast from raw
  bytes (pq::PQAlgorithm, EBCAddressVersion) are modelled by their underlying
  integer value as a Nat, with the enumerators as named constants.  This is
  faithful: FromString and Deserialize cast arbitrary bytes into these enums,
  so values outside the named enumerators are representable, exactly as in
  the C++ program.
- Bit masking with a constant of the form 2 ^ n - 1 is written with the same
  bitwise operator as the source.
- The external liboqs signature primitive (OQS_SIG_sign / OQS_SIG_verify) is
  not part of this repository; where a wrapper calls into it the call site is
  modelled by an oracle function parameter, so every theorem about the
  wrappers holds for an arbitrary behaviour of the primitive.
-/

set_option maxRecDepth 10000

namespace EBC

/-! ### Bit-level helpers

natBits w n is the list of the w low bits of n, most significant first;
bitsVal is its inverse on lists of fixed length.  These are the reference
semantics used to reason about the ConvertBits template from
util/strencodings.h. -/

def natBits : Nat → Nat → List Bool
  | 0, _ => []
  | w + 1, n => n.testBit w :: natBits w n

def bitsVal (l : List Bool) : Nat :=
  l.foldl (fun a b => 2 * a + b.toNat) 0

theorem length_natBits (w n : Nat) : (natBits w n).length = w := by
  induction w generalizing n with
  | zero => rfl
  | succ w ih => simp [natBits, ih]

theorem bitsVal_foldl (l : List Bool) (x : Nat) :
    l.foldl (fun a b => 2 * a + b.toNat) x = x * 2 ^ l.length + bitsVal l := by
  induction l generalizing x with
  | nil => simp [bitsVal]
  | cons b t ih =>
    simp only [List.foldl_cons, List.length_cons]
    rw [ih]
    have h2 : bitsVal (b :: t) = b.toNat * 2 ^ t.length + bitsVal t := by
      show List.foldl _ _ (b :: t) = _
      rw [List.foldl_cons, ih]
      norm_num
    rw [h2]
    ring

theorem bitsVal_cons (b : Bool) (l : List Bool) :
    bitsVal (b :: l) = b.toNat * 2 ^ l.length + bitsVal l := by
  rw [bitsVal, List.foldl_cons, bitsVal_foldl]
  simp [bitsVal]

theorem bitsVal_append (a b : List Bool) :
    bitsVal (a ++ b) = bitsVal a * 2 ^ b.length + bitsVal b := by
  rw [bitsVal, List.foldl_append, bitsVal_foldl]
  rfl

theorem bitsVal_lt (l : List Bool) : bitsVal l < 2 ^ l.length := by
  induction l with
  | nil => simp [bitsVal]
  | cons b t ih =>
    rw [bitsVal_cons]
    have hb : b.toNat ≤ 1 := Bool.toNat_le b
    have : b.toNat * 2 ^ t.length ≤ 2 ^ t.length := by
      calc b.toNat * 2 ^ t.length ≤ 1 * 2 ^ t.length :=
            Nat.mul_le_mul_right _ hb
        _ = 2 ^ t.length := by ring
    calc b.toNat * 2 ^ t.length + bitsVal t < b.toNat * 2 ^ t.length + 2 ^ t.length :=
          Nat.add_lt_add_left ih _
      _ ≤ 2 ^ t.length + 2 ^ t.length := Nat.add_le_add_right this _
      _ = 2 ^ (t.length + 1) := by ring
      _ = 2 ^ (b :: t).length := by simp

theorem bitsVal_natBits (w n : Nat) : bitsVal (natBits w n) = n % 2 ^ w := by
  induction w generalizing n with
  | zero => simp [natBits, bitsVal, Nat.mod_one]
  | succ w ih =>
    rw [natBits, bitsVal_cons, length_natBits, ih]
    have e1 : n % 2 ^ (w + 1) / 2 ^ w = n / 2 ^ w % 2 := by
      rw [Nat.pow_succ, Nat.mod_mul_right_div_self]
    have e2 : n % 2 ^ (w + 1) % 2 ^ w = n % 2 ^ w :=
      Nat.mod_mod_of_dvd _ (by rw [Nat.pow_succ]; exact ⟨2, rfl⟩)
    have hsplit : n % 2 ^ (w + 1) = n / 2 ^ w % 2 * 2 ^ w + n % 2 ^ w := by
      calc n % 2 ^ (w + 1)
          = 2 ^ w * (n % 2 ^ (w + 1) / 2 ^ w) + n % 2 ^ (w + 1) % 2 ^ w :=
            (Nat.div_add_mod _ _).symm
        _ = 2 ^ w * (n / 2 ^ w % 2) + n % 2 ^ w := by rw [e1, e2]
        _ = n / 2 ^ w % 2 * 2 ^ w + n % 2 ^ w := by ring
    rw [hsplit, Nat.testBit_to_div_mod]
    rcases Nat.mod_two_eq_zero_or_one (n / 2 ^ w) with h | h <;> simp [h]

theorem natBits_mod_ge {w m : Nat} (h : w ≤ m) (n : Nat) :
    natBits w (n % 2 ^ m) = natBits w n := by
  induction w generalizing m with
  | zero => rfl
  | succ w ih =>
    rw [natBits, natBits, Nat.testBit_mod_two_pow,
      ih (Nat.le_of_succ_le h)]
    have : w < m := Nat.lt_of_succ_le h
    simp [this]

theorem natBits_zero (w : Nat) : natBits w 0 = List.replicate w false := by
  induction w with
  | zero => rfl
  | succ w ih => simp [natBits, List.replicate_succ, ih]

theorem natBits_bitsVal (l : List Bool) : natBits l.length (bitsVal l) = l := by
  induction l with
  | nil => rfl
  | cons b t ih =>
    have hlt : bitsVal t < 2 ^ t.length := bitsVal_lt t
    rw [List.length_cons, natBits, bitsVal_cons]
    have hmul : b.toNat * 2 ^ t.length + bitsVal t
        = 2 ^ t.length * b.toNat + bitsVal t := by ring
    have hhead : (b.toNat * 2 ^ t.length + bitsVal t).testBit t.length = b := by
      rw [hmul, Nat.testBit_mul_pow_two_add _ hlt, if_neg (Nat.lt_irrefl _), Nat.sub_self]
      cases b <;> rfl
    have htail : natBits t.length (b.toNat * 2 ^ t.length + bitsVal t) = t := by
      have hmod : (b.toNat * 2 ^ t.length + bitsVal t) % 2 ^ t.length = bitsVal t := by
        rw [Nat.add_comm, Nat.add_mul_mod_self_right, Nat.mod_eq_of_lt hlt]
      calc natBits t.length (b.toNat * 2 ^ t.length + bitsVal t)
          = natBits t.length ((b.toNat * 2 ^ t.length + bitsVal t) % 2 ^ t.length) :=
            (natBits_mod_ge (Nat.le_refl _) _).symm
        _ = natBits t.length (bitsVal t) := by rw [hmod]
        _ = t := ih
    rw [hhead, htail]

theorem natBits_split (a b n : Nat) :
    natBits (a + b) n = natBits a (n >>> b) ++ natBits b n := by
  induction a generalizing n with
  | zero => simp [natBits]
  | succ a ih =>
    have h1 : a + 1 + b = (a + b) + 1 := by omega
    rw [h1, natBits, natBits, ih, List.cons_append]
    rw [Nat.testBit_shiftRight]
    have h2 : b + a = a + b := Nat.add_comm _ _
    rw [h2]

theorem bitsVal_replicate_false (n : Nat) :
    bitsVal (List.replicate n false) = 0 := by
  induction n with
  | zero => rfl
  | succ n ih => rw [List.replicate_succ, bitsVal_cons, ih]; simp

/-- Disjoint-field addition is bitwise or. -/
theorem add_disjoint_eq_or {b k : Nat} (hb : b < 2 ^ k) (m : Nat) :
    2 ^ k * m + b = 2 ^ k * m ||| b :=
  Nat.mul_add_lt_is_or hb m

/-- Disjoint-field addition is bitwise xor. -/
theorem add_disjoint_eq_xor {b k : Nat} (hb : b < 2 ^ k) (m : Nat) :
    2 ^ k * m + b = 2 ^ k * m ^^^ b := by
  apply Nat.eq_of_testBit_eq
  intro i
  rw [Nat.testBit_mul_pow_two_add _ hb, Nat.testBit_xor, Nat.testBit_mul_pow_two]
  by_cases h : i < k
  · have : ¬ i ≥ k := by omega
    simp [h, this]
  · have hge : i ≥ k := by omega
    have hbk : b < 2 ^ i := lt_of_lt_of_le hb (Nat.pow_le_pow_right (by norm_num) hge)
    simp [h, hge, Nat.testBit_lt_two_pow hbk]

/-- Multiplying by a power of two distributes over xor. -/
theorem xor_mul_pow (x y k : Nat) :
    (x ^^^ y) * 2 ^ k = x * 2 ^ k ^^^ y * 2 ^ k := by
  apply Nat.eq_of_testBit_eq
  intro i
  have hx : ∀ z : Nat, (z * 2 ^ k).testBit i = (decide (i ≥ k) && z.testBit (i - k)) := by
    intro z
    rw [Nat.mul_comm, Nat.testBit_mul_pow_two]
  rw [Nat.testBit_xor, hx, hx, hx, Nat.testBit_xor]
  by_cases h : i ≥ k <;> simp [h]

/-! ### Splitting a bit stream into fixed-width groups

splitG with fuel equal to the list length computes the maximal list of
complete groups of width t together with the remainder of width below t.
This is the reference description of what the ConvertBits loop emits. -/

def splitG (t : Nat) : Nat → List Bool → List (List Bool) × List Bool
  | 0, l => ([], l)
  | fuel + 1, l =>
    if 0 < t ∧ t ≤ l.length then
      let r := splitG t fuel (l.drop t)
      (l.take t :: r.1, r.2)
    else ([], l)

def chunks (t : Nat) (l : List Bool) : List (List Bool) × List Bool :=
  splitG t l.length l

theorem splitG_nil (t fuel : Nat) : splitG t fuel ([] : List Bool) = ([], []) := by
  cases fuel with
  | zero => rfl
  | succ g =>
    have hc : ¬(0 < t ∧ t ≤ ([] : List Bool).length) := by
      simp only [List.length_nil]
      omega
    rw [splitG, if_neg hc]

theorem splitG_congr (t : Nat) : ∀ (f1 f2 : Nat) (l : List Bool),
    l.length ≤ f1 → l.length ≤ f2 → splitG t f1 l = splitG t f2 l := by
  intro f1
  induction f1 with
  | zero =>
    intro f2 l h1 h2
    have hnil : l = [] := List.eq_nil_of_length_eq_zero (Nat.le_zero.mp h1)
    subst hnil
    rw [splitG_nil, splitG_nil]
  | succ f1 ih =>
    intro f2 l h1 h2
    by_cases hc : 0 < t ∧ t ≤ l.length
    · have hl1 : 1 ≤ l.length := le_trans hc.1 hc.2
      obtain ⟨g2, hg2⟩ : ∃ g2, f2 = g2 + 1 := ⟨f2 - 1, by omega⟩
      subst hg2
      rw [splitG, splitG, if_pos hc, if_pos hc]
      have hd : (l.drop t).length = l.length - t := List.length_drop t l
      rw [ih g2 (l.drop t) (by omega) (by omega)]
    · cases f2 with
      | zero =>
        have hnil : l = [] := List.eq_nil_of_length_eq_zero (Nat.le_zero.mp h2)
        subst hnil
        rw [splitG_nil, splitG_nil]
      | succ g2 => rw [splitG, splitG, if_neg hc, if_neg hc]

theorem splitG_fuel {t fuel : Nat} {l : List Bool} (h : l.length ≤ fuel) :
    splitG t fuel l = chunks t l :=
  splitG_congr t fuel l.length l h (Nat.le_refl _)

theorem chunks_base {t : Nat} {l : List Bool} (h : ¬(0 < t ∧ t ≤ l.length)) :
    chunks t l = ([], l) := by
  rw [chunks]
  cases hlen : l.length with
  | zero => rfl
  | succ m => rw [splitG, if_neg h]

theorem chunks_short {t : Nat} {l : List Bool} (h : l.length < t) :
    chunks t l = ([], l) :=
  chunks_base (by omega)

theorem chunks_step {t : Nat} {l : List Bool} (ht : 0 < t) (hlen : t ≤ l.length) :
    chunks t l = (l.take t :: (chunks t (l.drop t)).1, (chunks t (l.drop t)).2) := by
  have hlpos : 1 ≤ l.length := le_trans ht hlen
  obtain ⟨m, hm⟩ : ∃ m, l.length = m + 1 := ⟨l.length - 1, by omega⟩
  rw [chunks, hm, splitG, if_pos ⟨ht, hlen⟩]
  have hrw : splitG t m (l.drop t) = chunks t (l.drop t) := by
    apply splitG_fuel
    have := List.length_drop t l
    omega
  rw [hrw]

theorem chunks_append_group {t : Nat} {g : List Bool} (ht : 0 < t)
    (hg : g.length = t) (b : List Bool) :
    chunks t (g ++ b) = (g :: (chunks t b).1, (chunks t b).2) := by
  have hlen : t ≤ (g ++ b).length := by
    rw [List.length_append, hg]; omega
  rw [chunks_step ht hlen]
  have h1 : (g ++ b).take t = g := by
    rw [← hg]; exact List.take_left g b
  have h2 : (g ++ b).drop t = b := by
    rw [← hg]; exact List.drop_left g b
  rw [h1, h2]

theorem chunks_join (t : Nat) (l : List Bool) :
    (chunks t l).1.flatten ++ (chunks t l).2 = l := by
  suffices hmain : ∀ (n : Nat) (l : List Bool), l.length ≤ n →
      (chunks t l).1.flatten ++ (chunks t l).2 = l from
    hmain l.length l (Nat.le_refl _)
  intro n
  induction n with
  | zero =>
    intro l hl
    have hnil : l = [] := List.eq_nil_of_length_eq_zero (Nat.le_zero.mp hl)
    subst hnil
    rfl
  | succ n ih =>
    intro l hl
    by_cases hc : 0 < t ∧ t ≤ l.length
    · rw [chunks_step hc.1 hc.2]
      have hd : (l.drop t).length = l.length - t := List.length_drop t l
      have hrec := ih (l.drop t) (by omega)
      simp only [List.flatten_cons, List.append_assoc, hrec]
      exact List.take_append_drop t l
    · rw [chunks_base hc]
      simp

theorem chunks_group_length {t : Nat} (l : List Bool) :
    ∀ g ∈ (chunks t l).1, g.length = t := by
  suffices hmain : ∀ (n : Nat) (l : List Bool), l.length ≤ n →
      ∀ g ∈ (chunks t l).1, g.length = t from
    hmain l.length l (Nat.le_refl _)
  intro n
  induction n with
  | zero =>
    intro l hl
    have hnil : l = [] := List.eq_nil_of_length_eq_zero (Nat.le_zero.mp hl)
    subst hnil
    intro g hg
    simp [chunks, splitG] at hg
  | succ n ih =>
    intro l hl
    by_cases hc : 0 < t ∧ t ≤ l.length
    · rw [chunks_step hc.1 hc.2]
      intro g hg
      rcases List.mem_cons.mp hg with hg | hg
      · subst hg
        exact List.length_take_of_le hc.2
      · have hd : (l.drop t).length = l.length - t := List.length_drop t l
        exact ih (l.drop t) (by omega) g hg
    · rw [chunks_base hc]
      intro g hg
      simp at hg

theorem chunks_count {t : Nat} (ht : 0 < t) (l : List Bool) :
    (chunks t l).1.length = l.length / t := by
  suffices hmain : ∀ (n : Nat) (l : List Bool), l.length ≤ n →
      (chunks t l).1.length = l.length / t from
    hmain l.length l (Nat.le_refl _)
  intro n
  induction n with
  | zero =>
    intro l hl
    have hnil : l = [] := List.eq_nil_of_length_eq_zero (Nat.le_zero.mp hl)
    subst hnil
    simp [chunks, splitG]
  | succ n ih =>
    intro l hl
    by_cases hc : t ≤ l.length
    · rw [chunks_step ht hc]
      have hd : (l.drop t).length = l.length - t := List.length_drop t l
      have hrec := ih (l.drop t) (by omega)
      simp only [List.length_cons, hrec, hd]
      rw [Nat.div_eq_sub_div ht hc]
    · have hb : chunks t l = ([], l) := chunks_base (by omega)
      rw [hb]
      have hz : l.length / t = 0 := Nat.div_eq_of_lt (by omega)
      simp [hz]

theorem sum_map_length_const {t : Nat} : ∀ L : List (List Bool),
    (∀ g ∈ L, g.length = t) → (L.map List.length).sum = L.length * t := by
  intro L
  induction L with
  | nil => simp
  | cons g tl ih =>
    intro h
    have hg : g.length = t := h g (List.mem_cons_self g tl)
    have ht : ∀ x ∈ tl, x.length = t := fun x hx => h x (List.mem_cons_of_mem _ hx)
    simp only [List.map_cons, List.sum_cons, ih ht, hg, List.length_cons]
    ring

theorem chunks_rem_length {t : Nat} (ht : 0 < t) (l : List Bool) :
    (chunks t l).2.length = l.length % t := by
  have hj := congrArg List.length (chunks_join t l)
  rw [List.length_append, List.length_flatten,
    sum_map_length_const _ (chunks_group_length l), chunks_count ht] at hj
  have hdm := Nat.div_add_mod l.length t
  have h1 : l.length / t * t = t * (l.length / t) := Nat.mul_comm _ _
  omega

/-! ### ConvertBits (util/strencodings.h)

The ConvertBits template converts between bit group widths using an
accumulator.  The C++ loop is

  acc = ((acc << frombits) | *it) & max_acc; bits += frombits;
  while (bits >= tobits) { bits -= tobits; outfn((acc >> bits) & maxv); }

followed, after the input is exhausted, by
  pad:    if (bits) outfn((acc << (tobits - bits)) & maxv);
  no pad: fail if (bits >= frombits || ((acc << (tobits - bits)) & maxv)).

emitLoop is the inner while loop: it runs with fuel equal to the current bit
count, which bounds the number of iterations since tobits is positive, and
the while loop leaves bits equal to its value modulo tobits. -/

def stream (f : Nat) (xs : List Nat) : List Bool :=
  (xs.map (natBits f)).flatten

theorem stream_nil (f : Nat) : stream f [] = [] := rfl

theorem stream_cons (f : Nat) (v : Nat) (xs : List Nat) :
    stream f (v :: xs) = natBits f v ++ stream f xs := by
  simp [stream]

theorem stream_append (f : Nat) (a b : List Nat) :
    stream f (a ++ b) = stream f a ++ stream f b := by
  simp [stream]

theorem stream_length (f : Nat) (xs : List Nat) :
    (stream f xs).length = f * xs.length := by
  induction xs with
  | nil => simp [stream]
  | cons v rest ih =>
    rw [stream_cons, List.length_append, length_natBits, ih, List.length_cons]
    ring

def emitLoop (t maxv acc : Nat) : Nat → Nat → List Nat
  | _, 0 => []
  | bits, fuel + 1 =>
    if t ≤ bits then
      ((acc >>> (bits - t)) &&& maxv) :: emitLoop t maxv acc (bits - t) fuel
    else []

def convGo (f t maxAcc maxv : Nat) : List Nat → Nat → Nat → List Nat × Nat × Nat
  | [], acc, bits => ([], acc, bits)
  | v :: rest, acc, bits =>
    let acc2 := ((acc <<< f) ||| v) &&& maxAcc
    let bits2 := bits + f
    let out := emitLoop t maxv acc2 bits2 bits2
    let r := convGo f t maxAcc maxv rest acc2 (bits2 % t)
    (out ++ r.1, r.2)

def convertBits (f t : Nat) (padflag : Bool) (xs : List Nat) : Option (List Nat) :=
  let maxv := 2 ^ t - 1
  let maxAcc := 2 ^ (f + t - 1) - 1
  let r := convGo f t maxAcc maxv xs 0 0
  if padflag then
    some (r.1 ++ (if r.2.2 ≠ 0 then [(r.2.1 <<< (t - r.2.2)) &&& maxv] else []))
  else if f ≤ r.2.2 ∨ ((r.2.1 <<< (t - r.2.2)) &&& maxv) ≠ 0 then none
  else some r.1

theorem emitLoop_spec {t : Nat} (ht : 0 < t) (acc : Nat) :
    ∀ (fuel bits : Nat), bits ≤ fuel →
      emitLoop t (2 ^ t - 1) acc bits fuel
          = ((chunks t (natBits bits acc)).1).map bitsVal
      ∧ (chunks t (natBits bits acc)).2 = natBits (bits % t) acc := by
  intro fuel
  induction fuel with
  | zero =>
    intro bits hb
    have hb0 : bits = 0 := by omega
    subst hb0
    have hch : chunks t (natBits 0 acc) = ([], []) := chunks_short (by simp [natBits]; omega)
    constructor
    · rw [hch]; rfl
    · rw [hch, Nat.zero_mod]; rfl
  | succ fuel ih =>
    intro bits hb
    by_cases hge : t ≤ bits
    · have hsplit : natBits bits acc
          = natBits t (acc >>> (bits - t)) ++ natBits (bits - t) acc := by
        conv_lhs => rw [show bits = t + (bits - t) by omega, natBits_split]
      have hglen : (natBits t (acc >>> (bits - t))).length = t := length_natBits _ _
      have hch := chunks_append_group ht hglen (natBits (bits - t) acc)
      have hval : bitsVal (natBits t (acc >>> (bits - t)))
          = (acc >>> (bits - t)) &&& (2 ^ t - 1) := by
        rw [bitsVal_natBits, Nat.and_pow_two_sub_one_eq_mod]
      have hrec := ih (bits - t) (by omega)
      have hmod : bits % t = (bits - t) % t := by
        conv_lhs => rw [show bits = (bits - t) + t by omega]
        rw [Nat.add_mod_right]
      constructor
      · rw [emitLoop, if_pos hge, hsplit, hch]
        simp only [List.map_cons]
        rw [hval, hrec.1]
      · rw [hsplit, hch, hmod]
        exact hrec.2
    · have hlt : bits < t := by omega
      have hch : chunks t (natBits bits acc) = ([], natBits bits acc) :=
        chunks_short (by rw [length_natBits]; omega)
      constructor
      · rw [emitLoop, if_neg hge, hch]; rfl
      · rw [hch, Nat.mod_eq_of_lt hlt]

theorem chunks_append (t : Nat) (ht : 0 < t) : ∀ (A B : List Bool),
    chunks t (A ++ B) = ((chunks t A).1 ++ (chunks t ((chunks t A).2 ++ B)).1,
      (chunks t ((chunks t A).2 ++ B)).2) := by
  suffices hmain : ∀ (n : Nat) (A B : List Bool), A.length ≤ n →
      chunks t (A ++ B) = ((chunks t A).1 ++ (chunks t ((chunks t A).2 ++ B)).1,
        (chunks t ((chunks t A).2 ++ B)).2) from
    fun A B => hmain A.length A B (Nat.le_refl _)
  intro n
  induction n with
  | zero =>
    intro A B hA
    have hnil : A = [] := List.eq_nil_of_length_eq_zero (Nat.le_zero.mp hA)
    subst hnil
    have h0 : chunks t ([] : List Bool) = ([], []) := rfl
    simp [h0]
  | succ n ih =>
    intro A B hA
    by_cases hc : t ≤ A.length
    · have htake : (A ++ B).take t = A.take t := List.take_append_of_le_length hc
      have hdrop : (A ++ B).drop t = A.drop t ++ B := List.drop_append_of_le_length hc
      have hlen2 : t ≤ (A ++ B).length := by
        rw [List.length_append]; omega
      have hAd : (A.drop t).length = A.length - t := List.length_drop t A
      rw [chunks_step ht hlen2, htake, hdrop, ih (A.drop t) B (by omega),
        chunks_step ht hc]
      simp
    · have hbase : chunks t A = ([], A) := chunks_base (by omega)
      rw [hbase]
      simp


theorem convGo_spec {f t : Nat} (hf : 0 < f) (ht : 0 < t) :
    ∀ (xs : List Nat) (acc bits : Nat), bits < t → (∀ x ∈ xs, x < 2 ^ f) →
      (convGo f t (2 ^ (f + t - 1) - 1) (2 ^ t - 1) xs acc bits).1
          = ((chunks t (natBits bits acc ++ stream f xs)).1).map bitsVal
      ∧ natBits (convGo f t (2 ^ (f + t - 1) - 1) (2 ^ t - 1) xs acc bits).2.2
            (convGo f t (2 ^ (f + t - 1) - 1) (2 ^ t - 1) xs acc bits).2.1
          = (chunks t (natBits bits acc ++ stream f xs)).2
      ∧ (convGo f t (2 ^ (f + t - 1) - 1) (2 ^ t - 1) xs acc bits).2.2 < t := by
  intro xs
  induction xs with
  | nil =>
    intro acc bits hb _
    have hch : chunks t (natBits bits acc ++ stream f []) = ([], natBits bits acc) := by
      rw [stream_nil, List.append_nil]
      exact chunks_short (by rw [length_natBits]; omega)
    refine ⟨?_, ?_, hb⟩
    · rw [hch]; rfl
    · rw [hch]; rfl
  | cons v rest ih =>
    intro acc bits hb hx
    have hv : v < 2 ^ f := hx v (List.mem_cons_self v rest)
    have hrest : ∀ x ∈ rest, x < 2 ^ f := fun x hmem => hx x (List.mem_cons_of_mem _ hmem)
    set acc2 := ((acc <<< f) ||| v) &&& (2 ^ (f + t - 1) - 1) with hacc2def
    have hor : (acc <<< f) ||| v = 2 ^ f * acc + v := by
      rw [Nat.shiftLeft_eq, Nat.mul_comm acc (2 ^ f)]
      exact (add_disjoint_eq_or hv acc).symm
    have hacc2 : acc2 = (2 ^ f * acc + v) % 2 ^ (f + t - 1) := by
      rw [hacc2def, hor, Nat.and_pow_two_sub_one_eq_mod]
    have hbits2 : natBits (bits + f) acc2 = natBits bits acc ++ natBits f v := by
      have hle : bits + f ≤ f + t - 1 := by omega
      rw [hacc2, natBits_mod_ge hle, natBits_split]
      have hdiv : (2 ^ f * acc + v) >>> f = acc := by
        rw [Nat.shiftRight_eq_div_pow, Nat.mul_add_div (Nat.two_pow_pos f),
          Nat.div_eq_of_lt hv, Nat.add_zero]
      have hmod : natBits f (2 ^ f * acc + v) = natBits f v := by
        calc natBits f (2 ^ f * acc + v)
            = natBits f ((2 ^ f * acc + v) % 2 ^ f) := (natBits_mod_ge (Nat.le_refl f) _).symm
          _ = natBits f v := by rw [Nat.mul_add_mod, Nat.mod_eq_of_lt hv]
      rw [hdiv, hmod]
    have hemit := emitLoop_spec ht acc2 (bits + f) (bits + f) (Nat.le_refl _)
    have hrec := ih acc2 ((bits + f) % t) (Nat.mod_lt _ ht) hrest
    have hstream : natBits bits acc ++ stream f (v :: rest)
        = natBits (bits + f) acc2 ++ stream f rest := by
      rw [stream_cons, hbits2, List.append_assoc]
    have happ := chunks_append t ht (natBits (bits + f) acc2) (stream f rest)
    have hrem2 : (chunks t (natBits (bits + f) acc2)).2 = natBits ((bits + f) % t) acc2 :=
      hemit.2
    refine ⟨?_, ?_, hrec.2.2⟩
    · show emitLoop t (2 ^ t - 1) acc2 (bits + f) (bits + f)
          ++ (convGo f t (2 ^ (f + t - 1) - 1) (2 ^ t - 1) rest acc2 ((bits + f) % t)).1
        = _
      rw [hemit.1, hrec.1, hstream, happ, hrem2]
      simp
    · show natBits (convGo f t (2 ^ (f + t - 1) - 1) (2 ^ t - 1) rest acc2 ((bits + f) % t)).2.2
            (convGo f t (2 ^ (f + t - 1) - 1) (2 ^ t - 1) rest acc2 ((bits + f) % t)).2.1
        = _
      rw [hrec.2.1, hstream, happ, hrem2]

theorem chunks_stream_eight (xs : List Nat) :
    ∀ B : List Bool, B.length < 8 →
      chunks 8 (stream 8 xs ++ B) = (xs.map (natBits 8), B) := by
  induction xs with
  | nil =>
    intro B hB
    rw [stream_nil, List.nil_append, List.map_nil]
    exact chunks_short (by omega)
  | cons v rest ih =>
    intro B hB
    rw [stream_cons, List.append_assoc,
      chunks_append_group (by norm_num) (length_natBits 8 v) (stream 8 rest ++ B),
      ih B hB, List.map_cons]

/-- Round trip for the ConvertBits template: converting a byte list to 5-bit
groups with padding and back with strict padding validation recovers the
original bytes. -/
theorem convertBits_round (xs : List Nat) (hxs : ∀ x ∈ xs, x < 256) :
    ∃ gs, convertBits 8 5 true xs = some gs
      ∧ (∀ g ∈ gs, g < 32)
      ∧ gs.length ≤ 8 * xs.length / 5 + 1
      ∧ convertBits 5 8 false gs = some xs := by
  have h256 : ∀ x ∈ xs, x < 2 ^ 8 := by
    intro x hx
    have := hxs x hx
    omega
  have hmain := convGo_spec (f := 8) (t := 5) (by norm_num) (by norm_num) xs 0 0
    (by norm_num) h256
  set C := convGo 8 5 (2 ^ (8 + 5 - 1) - 1) (2 ^ 5 - 1) xs 0 0 with hCdef
  have hctx : natBits 0 0 ++ stream 8 xs = stream 8 xs := by rfl
  rw [hctx] at hmain
  obtain ⟨hout, hremC, hbitsC⟩ := hmain
  set S8 : List Bool := stream 8 xs with hS8def
  set G : List (List Bool) := (chunks 5 S8).1 with hGdef
  set rem : List Bool := (chunks 5 S8).2 with hremdef
  have hremlen : rem.length = C.2.2 := by
    rw [← hremC, length_natBits]
  set P : List Nat := if C.2.2 ≠ 0 then [(C.2.1 <<< (5 - C.2.2)) &&& (2 ^ 5 - 1)] else []
    with hPdef
  have hconv1 : convertBits 8 5 true xs = some (C.1 ++ P) := by rfl
  -- bounds on the produced groups
  have hGlt : ∀ g ∈ C.1, g < 32 := by
    intro g hg
    rw [hout] at hg
    obtain ⟨gr, hgr, hgrv⟩ := List.mem_map.mp hg
    have hlen : gr.length = 5 := chunks_group_length S8 gr hgr
    have := bitsVal_lt gr
    rw [hlen] at this
    omega
  have hPlt : ∀ g ∈ P, g < 32 := by
    intro g hg
    rw [hPdef] at hg
    by_cases hc : C.2.2 ≠ 0
    · rw [if_pos hc] at hg
      rcases List.mem_singleton.mp hg with rfl
      rw [Nat.and_pow_two_sub_one_eq_mod]
      have : (C.2.1 <<< (5 - C.2.2)) % 2 ^ 5 < 2 ^ 5 := Nat.mod_lt _ (by norm_num)
      omega
    · rw [if_neg hc] at hg
      simp at hg
  -- the 5-bit stream of the produced groups is the byte stream plus zero padding
  have hstreamG : stream 5 C.1 = G.flatten := by
    rw [hout, stream, List.map_map]
    have hcongr : ∀ g ∈ G, (natBits 5 ∘ bitsVal) g = id g := by
      intro g hg
      have hlen : g.length = 5 := chunks_group_length S8 g hg
      simp only [Function.comp_apply, id_eq]
      rw [← hlen, natBits_bitsVal]
    rw [List.map_congr_left hcongr, List.map_id]
  have hjoin : G.flatten ++ rem = S8 := chunks_join 5 S8
  -- the padding bits
  set Z : List Bool := if C.2.2 ≠ 0 then List.replicate (5 - C.2.2) false else []
    with hZdef
  have hZrep : bitsVal Z = 0 := by
    rw [hZdef]
    by_cases hc : C.2.2 ≠ 0
    · rw [if_pos hc, bitsVal_replicate_false]
    · rw [if_neg hc]; rfl
  have hZlen : Z.length ≤ 4 := by
    rw [hZdef]
    by_cases hc : C.2.2 ≠ 0
    · rw [if_pos hc, List.length_replicate]
      omega
    · rw [if_neg hc]
      simp
  have hstream5 : stream 5 (C.1 ++ P) = S8 ++ Z := by
    rw [stream_append, hstreamG]
    by_cases hc : C.2.2 ≠ 0
    · have hPval : P = [(C.2.1 <<< (5 - C.2.2)) &&& (2 ^ 5 - 1)] := by
        rw [hPdef, if_pos hc]
      have hZval : Z = List.replicate (5 - C.2.2) false := by
        rw [hZdef, if_pos hc]
      set b := C.2.2 with hbdef
      have hb5 : b < 5 := hbitsC
      have hb1 : 1 ≤ b := by omega
      have hpv : (C.2.1 <<< (5 - b)) &&& (2 ^ 5 - 1)
          = (C.2.1 % 2 ^ b) * 2 ^ (5 - b) := by
        rw [Nat.and_pow_two_sub_one_eq_mod, Nat.shiftLeft_eq]
        have h25 : (2 : Nat) ^ 5 = 2 ^ b * 2 ^ (5 - b) := by
          rw [← Nat.pow_add]
          congr 1
          omega
        rw [h25, Nat.mul_mod_mul_right]
      have hstreamP : stream 5 P = rem ++ List.replicate (5 - b) false := by
        rw [hPval, stream_cons, stream_nil, List.append_nil, hpv]
        have h5b : b + (5 - b) = 5 := by omega
        have hsplit2 := natBits_split b (5 - b) ((C.2.1 % 2 ^ b) * 2 ^ (5 - b))
        rw [h5b] at hsplit2
        rw [hsplit2]
        have hdiv2 : ((C.2.1 % 2 ^ b) * 2 ^ (5 - b)) >>> (5 - b) = C.2.1 % 2 ^ b := by
          rw [Nat.shiftRight_eq_div_pow, Nat.mul_div_cancel _ (Nat.two_pow_pos _)]
        have hrem2 : natBits b (C.2.1 % 2 ^ b) = rem := by
          rw [natBits_mod_ge (Nat.le_refl b), hremC]
        have hzero2 : natBits (5 - b) ((C.2.1 % 2 ^ b) * 2 ^ (5 - b))
            = List.replicate (5 - b) false := by
          rw [← natBits_mod_ge (Nat.le_refl (5 - b)), Nat.mul_mod_left, natBits_zero]
        rw [hdiv2, hrem2, hzero2]
      rw [hstreamP, hZval, ← List.append_assoc, hjoin]
    · have hPval : P = [] := by rw [hPdef, if_neg hc]
      have hZval : Z = [] := by rw [hZdef, if_neg hc]
      have hb0 : C.2.2 = 0 := by omega
      have hremnil : rem = [] := by
        rw [← hremC, hb0]
        rfl
      rw [hPval, hZval, stream_nil, List.append_nil, List.append_nil]
      rw [hremnil, List.append_nil] at hjoin
      exact hjoin
  -- decode the produced groups back
  have hgs32 : ∀ g ∈ C.1 ++ P, g < 2 ^ 5 := by
    intro g hg
    rcases List.mem_append.mp hg with hg | hg
    · have := hGlt g hg; omega
    · have := hPlt g hg; omega
  have hdec := convGo_spec (f := 5) (t := 8) (by norm_num) (by norm_num) (C.1 ++ P) 0 0
    (by norm_num) hgs32
  set D := convGo 5 8 (2 ^ (5 + 8 - 1) - 1) (2 ^ 8 - 1) (C.1 ++ P) 0 0 with hDdef
  have hctx2 : natBits 0 0 ++ stream 5 (C.1 ++ P) = S8 ++ Z := by
    rw [hstream5]; rfl
  rw [hctx2] at hdec
  obtain ⟨hdout, hdrem, hdbits⟩ := hdec
  have hch8 : chunks 8 (S8 ++ Z) = (xs.map (natBits 8), Z) :=
    chunks_stream_eight xs Z (by omega)
  have hD1 : D.1 = xs := by
    rw [hdout, hch8, List.map_map]
    have hcongr : ∀ x ∈ xs, (bitsVal ∘ natBits 8) x = id x := by
      intro x hx
      simp only [Function.comp_apply, id_eq]
      rw [bitsVal_natBits, Nat.mod_eq_of_lt]
      have := hxs x hx
      norm_num
      omega
    rw [List.map_congr_left hcongr, List.map_id]
  have hDrem : natBits D.2.2 D.2.1 = Z := by
    rw [hdrem, hch8]
  have hDbits : D.2.2 = Z.length := by
    have := congrArg List.length hDrem
    rw [length_natBits] at this
    exact this
  have hcheck : ¬(5 ≤ D.2.2 ∨ ((D.2.1 <<< (8 - D.2.2)) &&& (2 ^ 8 - 1)) ≠ 0) := by
    push_neg
    constructor
    · omega
    · set z := D.2.2 with hzdef
      have hz8 : z ≤ 8 := by omega
      rw [Nat.and_pow_two_sub_one_eq_mod, Nat.shiftLeft_eq]
      have h28 : (2 : Nat) ^ 8 = 2 ^ z * 2 ^ (8 - z) := by
        rw [← Nat.pow_add]
        congr 1
        omega
      rw [h28, Nat.mul_mod_mul_right]
      have hz0 : D.2.1 % 2 ^ z = 0 := by
        have := bitsVal_natBits z D.2.1
        rw [hDrem, hZrep] at this
        omega
      rw [hz0, Nat.zero_mul]
  refine ⟨C.1 ++ P, hconv1, ?_, ?_, ?_⟩
  · intro g hg
    rcases List.mem_append.mp hg with hg | hg
    · exact hGlt g hg
    · exact hPlt g hg
  · have hClen : C.1.length = 8 * xs.length / 5 := by
      rw [hout, List.length_map]
      calc G.length = S8.length / 5 := chunks_count (by norm_num) S8
        _ = 8 * xs.length / 5 := by rw [hS8def, stream_length]
    have hPlen : P.length ≤ 1 := by
      rw [hPdef]
      by_cases hc : C.2.2 ≠ 0
      · rw [if_pos hc]; simp
      · rw [if_neg hc]; simp
    rw [List.length_append]
    omega
  · show convertBits 5 8 false (C.1 ++ P) = some xs
    have hunfold : convertBits 5 8 false (C.1 ++ P)
        = if 5 ≤ D.2.2 ∨ ((D.2.1 <<< (8 - D.2.2)) &&& (2 ^ 8 - 1)) ≠ 0 then none
          else some D.1 := rfl
    rw [hunfold, if_neg hcheck, hD1]

/-! ### Bech32m (bech32.h / bech32.cpp)

The bech32 implementation used by ebc_address.cpp lives in bech32.cpp of the
host codebase (it is not among the EBC source files); it is the reference
Bech32 / Bech32m codec of BIP-173 / BIP-350.  PolyMod, ExpandHRP,
CreateChecksum, VerifyChecksum, Encode and Decode below transcribe that
implementation; condXor b k a is one conditional feedback step
(if b then a xor k else a) of the PolyMod loop, applied in the same order as
the five sequential if statements of the C++ code. -/

inductive Bech32Encoding
  | BECH32
  | BECH32M
deriving DecidableEq

def EncodingConstant : Bech32Encoding → Nat
  | .BECH32 => 1
  | .BECH32M => 0x2bc830a3

def condXor (p : Prop) [Decidable p] (k a : Nat) : Nat :=
  if p then a ^^^ k else a

def polyModStep (c v : Nat) : Nat :=
  condXor ((c >>> 25) &&& 16 ≠ 0) 0x2a1462b3
    (condXor ((c >>> 25) &&& 8 ≠ 0) 0x3d4233dd
      (condXor ((c >>> 25) &&& 4 ≠ 0) 0x1ea119fa
        (condXor ((c >>> 25) &&& 2 ≠ 0) 0x26508e6d
          (condXor ((c >>> 25) &&& 1 ≠ 0) 0x3b6a57b2
            (((c &&& 0x1ffffff) <<< 5) ^^^ v)))))

def PolyMod (l : List Nat) : Nat := l.foldl polyModStep 1

def ExpandHRP (hrp : List Nat) : List Nat :=
  hrp.map (fun c => c >>> 5) ++ [0] ++ hrp.map (fun c => c &&& 31)

def CreateChecksum (enc : Bech32Encoding) (hrp values : List Nat) : List Nat :=
  let m := PolyMod (ExpandHRP hrp ++ values ++ List.replicate 6 0) ^^^ EncodingConstant enc
  (List.range 6).map (fun i => (m >>> (5 * (5 - i))) &&& 31)

def VerifyChecksum (hrp values : List Nat) : Option Bech32Encoding :=
  if PolyMod (ExpandHRP hrp ++ values) = EncodingConstant Bech32Encoding.BECH32 then
    some Bech32Encoding.BECH32
  else if PolyMod (ExpandHRP hrp ++ values) = EncodingConstant Bech32Encoding.BECH32M then
    some Bech32Encoding.BECH32M
  else none

/-! PolyMod is affine in a small value xored into the state: a value below
2 ^ 25 never reaches the feedback taps while the remaining input is at most
six groups long, so it simply shifts left 5 bits per step. -/

theorem xor_swap_right (a v k : Nat) : (a ^^^ v) ^^^ k = (a ^^^ k) ^^^ v := by
  rw [Nat.xor_assoc, Nat.xor_comm v k, ← Nat.xor_assoc]

theorem condXor_val (p : Prop) [Decidable p] (k a v : Nat) :
    condXor p k (a ^^^ v) = condXor p k a ^^^ v := by
  unfold condXor
  by_cases h : p <;> simp [h, xor_swap_right]

theorem condXor_lt {p : Prop} [Decidable p] {k a n : Nat} (hk : k < 2 ^ n)
    (ha : a < 2 ^ n) : condXor p k a < 2 ^ n := by
  unfold condXor
  by_cases h : p
  · rw [if_pos h]
    exact Nat.xor_lt_two_pow ha hk
  · rw [if_neg h]
    exact ha

theorem xor_shiftRight (a b k : Nat) : (a ^^^ b) >>> k = a >>> k ^^^ b >>> k := by
  apply Nat.eq_of_testBit_eq
  intro i
  simp [Nat.testBit_shiftRight, Nat.testBit_xor]

theorem polyModStep_val (c v : Nat) : polyModStep c v = polyModStep c 0 ^^^ v := by
  unfold polyModStep
  simp only [condXor_val, Nat.xor_zero]

theorem polyModStep_xor {d : Nat} (hd : d < 2 ^ 25) (c w : Nat) :
    polyModStep (c ^^^ d) w = polyModStep c w ^^^ (d <<< 5) := by
  have hM : (0x1ffffff : Nat) = 2 ^ 25 - 1 := by norm_num
  have hc0 : (c ^^^ d) >>> 25 = c >>> 25 := by
    rw [xor_shiftRight]
    have hz : d >>> 25 = 0 := by
      rw [Nat.shiftRight_eq_div_pow]
      exact Nat.div_eq_of_lt hd
    rw [hz, Nat.xor_zero]
  have hmain : (((c ^^^ d) &&& 0x1ffffff) <<< 5) ^^^ w
      = ((((c &&& 0x1ffffff) <<< 5) ^^^ w) ^^^ (d <<< 5)) := by
    rw [hM, Nat.and_xor_distrib_right, Nat.and_pow_two_sub_one_of_lt_two_pow hd]
    rw [Nat.shiftLeft_eq, Nat.shiftLeft_eq, Nat.shiftLeft_eq, ← hM]
    rw [xor_mul_pow]
    rw [xor_swap_right]
  unfold polyModStep
  rw [hc0, hmain]
  simp only [condXor_val]

theorem foldl_polyModStep_xor : ∀ (l : List Nat) (c d : Nat),
    d * 2 ^ (5 * l.length) < 2 ^ 30 →
    l.foldl polyModStep (c ^^^ d)
      = l.foldl polyModStep c ^^^ (d <<< (5 * l.length)) := by
  intro l
  induction l with
  | nil =>
    intro c d _
    simp [Nat.shiftLeft_eq]
  | cons x r ih =>
    intro c d hd
    by_cases hd0 : d = 0
    · subst hd0
      simp
    · have hlen : 5 * (x :: r).length = 5 * r.length + 5 := by
        simp [List.length_cons]
        ring
      have hd25 : d < 2 ^ 25 := by
        by_contra hge
        push_neg at hge
        have h1 : (2 ^ 25) * 2 ^ 5 ≤ d * 2 ^ (5 * (x :: r).length) := by
          apply Nat.mul_le_mul hge
          rw [hlen]
          exact Nat.pow_le_pow_right (by norm_num) (by omega)
        have h2 : (2 : Nat) ^ 25 * 2 ^ 5 = 2 ^ 30 := by norm_num
        omega
      have hshift : (d <<< 5) * 2 ^ (5 * r.length) < 2 ^ 30 := by
        rw [Nat.shiftLeft_eq]
        calc d * 2 ^ 5 * 2 ^ (5 * r.length) = d * 2 ^ (5 * r.length + 5) := by
              rw [Nat.mul_assoc, ← Nat.pow_add]
              ring_nf
          _ = d * 2 ^ (5 * (x :: r).length) := by rw [hlen]
          _ < 2 ^ 30 := hd
      rw [List.foldl_cons, List.foldl_cons, polyModStep_xor hd25,
        ih (polyModStep c x) (d <<< 5) hshift]
      have hsh : d <<< 5 <<< (5 * r.length) = d <<< (5 * (x :: r).length) := by
        rw [Nat.shiftLeft_eq, Nat.shiftLeft_eq, Nat.shiftLeft_eq, hlen,
          Nat.mul_assoc, ← Nat.pow_add, Nat.add_comm 5 (5 * r.length)]
      rw [hsh]

/-- Base-32 value of a digit list, most significant first, as used for the
six 5-bit checksum groups. -/
def wVal (l : List Nat) : Nat := l.foldl (fun a x => a * 32 + x) 0

theorem wVal_foldl (l : List Nat) (x : Nat) :
    l.foldl (fun a y => a * 32 + y) x = x * 32 ^ l.length + wVal l := by
  induction l generalizing x with
  | nil => simp [wVal]
  | cons b t ih =>
    simp only [List.foldl_cons, List.length_cons]
    rw [ih]
    have h2 : wVal (b :: t) = b * 32 ^ t.length + wVal t := by
      show List.foldl _ _ (b :: t) = _
      rw [List.foldl_cons, ih]
      norm_num
    rw [h2]
    ring

theorem wVal_cons (b : Nat) (l : List Nat) :
    wVal (b :: l) = b * 32 ^ l.length + wVal l := by
  rw [wVal, List.foldl_cons, wVal_foldl]
  simp [wVal]

theorem wVal_append (a b : List Nat) :
    wVal (a ++ b) = wVal a * 32 ^ b.length + wVal b := by
  rw [wVal, List.foldl_append, wVal_foldl]
  rfl

theorem wVal_lt {l : List Nat} (h : ∀ x ∈ l, x < 32) : wVal l < 32 ^ l.length := by
  induction l with
  | nil => simp [wVal]
  | cons b t ih =>
    rw [wVal_cons]
    have hb : b < 32 := h b (List.mem_cons_self b t)
    have ht : wVal t < 32 ^ t.length := ih (fun x hx => h x (List.mem_cons_of_mem _ hx))
    have h1 : b * 32 ^ t.length ≤ 31 * 32 ^ t.length :=
      Nat.mul_le_mul_right _ (by omega)
    have h2 : (32 : Nat) ^ (b :: t).length = 32 * 32 ^ t.length := by
      rw [List.length_cons, Nat.pow_succ]
      ring
    omega

theorem polyMod_inject : ∀ (w : List Nat) (c : Nat), (∀ x ∈ w, x < 32) →
    w.length ≤ 6 →
    w.foldl polyModStep c
      = (List.replicate w.length 0).foldl polyModStep c ^^^ wVal w := by
  intro w
  induction w with
  | nil =>
    intro c _ _
    simp [wVal]
  | cons x r ih =>
    intro c hx hlen
    have hx32 : x < 32 := hx x (List.mem_cons_self x r)
    have hr6 : r.length ≤ 5 := by
      have := List.length_cons x r
      omega
    have hd : x * 2 ^ (5 * r.length) < 2 ^ 30 := by
      calc x * 2 ^ (5 * r.length) < 32 * 2 ^ (5 * r.length) :=
            (Nat.mul_lt_mul_right (Nat.two_pow_pos _)).mpr hx32
        _ = 2 ^ (5 * r.length + 5) := by
            rw [show (32 : Nat) = 2 ^ 5 by norm_num, ← Nat.pow_add]
            ring_nf
        _ ≤ 2 ^ 30 := Nat.pow_le_pow_right (by norm_num) (by omega)
    rw [List.foldl_cons, polyModStep_val, foldl_polyModStep_xor r _ x hd,
      ih (polyModStep c 0) (fun y hy => hx y (List.mem_cons_of_mem _ hy)) (by omega)]
    rw [show (x :: r).length = r.length + 1 from List.length_cons x r,
      List.replicate_succ, List.foldl_cons]
    have hrepl : (List.replicate r.length 0).foldl polyModStep (polyModStep c 0) ^^^ wVal r
        ^^^ x <<< (5 * r.length)
        = (List.replicate r.length 0).foldl polyModStep (polyModStep c 0)
          ^^^ (x <<< (5 * r.length) ^^^ wVal r) := by
      rw [Nat.xor_assoc]
      congr 1
      exact Nat.xor_comm _ _
    rw [hrepl]
    congr 1
    have hwr : wVal r < 2 ^ (5 * r.length) := by
      have := wVal_lt (fun y hy => hx y (List.mem_cons_of_mem _ hy))
      rwa [show (32 : Nat) ^ r.length = 2 ^ (5 * r.length) by
        rw [show (32 : Nat) = 2 ^ 5 by norm_num, ← Nat.pow_mul]] at this
    rw [wVal_cons, Nat.shiftLeft_eq,
      show (32 : Nat) ^ r.length = 2 ^ (5 * r.length) by
        rw [show (32 : Nat) = 2 ^ 5 by norm_num, ← Nat.pow_mul]]
    calc x * 2 ^ (5 * r.length) ^^^ wVal r
        = 2 ^ (5 * r.length) * x ^^^ wVal r := by rw [Nat.mul_comm]
      _ = 2 ^ (5 * r.length) * x + wVal r := (add_disjoint_eq_xor hwr x).symm
      _ = x * 2 ^ (5 * r.length) + wVal r := by ring

theorem polyModStep_lt {c v : Nat} (hv : v < 2 ^ 30) : polyModStep c v < 2 ^ 30 := by
  unfold polyModStep
  have hbase : (((c &&& 0x1ffffff) <<< 5) ^^^ v) < 2 ^ 30 := by
    apply Nat.xor_lt_two_pow _ hv
    rw [Nat.shiftLeft_eq]
    have h1 : c &&& 0x1ffffff ≤ 0x1ffffff := Nat.and_le_right
    have h2 : (0x1ffffff : Nat) < 2 ^ 25 := by norm_num
    calc (c &&& 0x1ffffff) * 2 ^ 5 < 2 ^ 25 * 2 ^ 5 :=
          (Nat.mul_lt_mul_right (show (0 : Nat) < 2 ^ 5 by norm_num)).mpr (by omega)
      _ = 2 ^ 30 := by norm_num
  apply condXor_lt (by norm_num)
  apply condXor_lt (by norm_num)
  apply condXor_lt (by norm_num)
  apply condXor_lt (by norm_num)
  apply condXor_lt (by norm_num)
  exact hbase

theorem polyMod_lt : ∀ (l : List Nat) (c : Nat), c < 2 ^ 30 → (∀ x ∈ l, x < 2 ^ 30) →
    l.foldl polyModStep c < 2 ^ 30 := by
  intro l
  induction l with
  | nil => intro c hc _; exact hc
  | cons x r ih =>
    intro c hc hx
    rw [List.foldl_cons]
    exact ih _ (polyModStep_lt (hx x (List.mem_cons_self x r)))
      (fun y hy => hx y (List.mem_cons_of_mem _ hy))

theorem wVal_digits : ∀ (k m : Nat), m < 32 ^ k →
    wVal ((List.range k).map (fun i => m / 32 ^ (k - 1 - i) % 32)) = m := by
  intro k
  induction k with
  | zero =>
    intro m hm
    have : m = 0 := by omega
    subst this
    rfl
  | succ k ih =>
    intro m hm
    rw [List.range_succ_eq_map, List.map_cons, List.map_map]
    have hq : m / 32 ^ k < 32 := by
      apply Nat.div_lt_of_lt_mul
      have h32 : (32 : Nat) ^ (k + 1) = 32 ^ k * 32 := by rw [Nat.pow_succ]
      omega
    have hhead : m / 32 ^ (k + 1 - 1 - 0) % 32 = m / 32 ^ k := by
      simp [Nat.mod_eq_of_lt hq]
    have htailf : ∀ i ∈ List.range k,
        ((fun i => m / 32 ^ (k + 1 - 1 - i) % 32) ∘ Nat.succ) i
          = (fun i => m % 32 ^ k / 32 ^ (k - 1 - i) % 32) i := by
      intro i hi
      have hik : i < k := List.mem_range.mp hi
      show m / 32 ^ (k + 1 - 1 - Nat.succ i) % 32 = m % 32 ^ k / 32 ^ (k - 1 - i) % 32
      have hidx : k + 1 - 1 - Nat.succ i = k - 1 - i := by omega
      rw [hidx]
      set j := k - 1 - i with hjdef
      have hjk : j + 1 ≤ k := by omega
      have hm2 : m = m % 32 ^ k + m / 32 ^ k * 32 ^ (k - j) * 32 ^ j := by
        have hpow : (32 : Nat) ^ (k - j) * 32 ^ j = 32 ^ k := by
          rw [← Nat.pow_add]
          congr 1
          omega
        rw [Nat.mul_assoc, hpow]
        have h1 := Nat.div_add_mod m (32 ^ k)
        have h2 : m / 32 ^ k * 32 ^ k = 32 ^ k * (m / 32 ^ k) := Nat.mul_comm _ _
        omega
      have hsplit : m / 32 ^ j = m % 32 ^ k / 32 ^ j + m / 32 ^ k * 32 ^ (k - j) := by
        conv_lhs => rw [hm2]
        rw [Nat.add_mul_div_right _ _ (Nat.pow_pos (show 0 < 32 by norm_num))]
      have hmod32 : m / 32 ^ k * 32 ^ (k - j) % 32 = 0 := by
        have h1 : (32 : Nat) ^ (k - j) = 32 * 32 ^ (k - j - 1) := by
          rw [← Nat.pow_succ']
          congr 1
          omega
        have h2 : m / 32 ^ k * (32 * 32 ^ (k - j - 1))
            = 32 * (m / 32 ^ k * 32 ^ (k - j - 1)) := by ring
        rw [h1, h2, Nat.mul_mod_right]
      omega
    rw [List.map_congr_left htailf]
    have hlen : ((List.range k).map (fun i => m % 32 ^ k / 32 ^ (k - 1 - i) % 32)).length
        = k := by
      rw [List.length_map, List.length_range]
    show wVal ((m / 32 ^ (k + 1 - 1 - 0) % 32) ::
        (List.range k).map (fun i => m % 32 ^ k / 32 ^ (k - 1 - i) % 32)) = m
    calc wVal ((m / 32 ^ (k + 1 - 1 - 0) % 32) ::
          (List.range k).map (fun i => m % 32 ^ k / 32 ^ (k - 1 - i) % 32))
        = m / 32 ^ (k + 1 - 1 - 0) % 32 * 32 ^ k
          + wVal ((List.range k).map (fun i => m % 32 ^ k / 32 ^ (k - 1 - i) % 32)) := by
          rw [wVal_cons, hlen]
      _ = m / 32 ^ k * 32 ^ k + m % 32 ^ k := by
          rw [hhead, ih (m % 32 ^ k) (Nat.mod_lt _ (Nat.pow_pos (show 0 < 32 by norm_num)))]
      _ = m := by
          have h1 := Nat.div_add_mod m (32 ^ k)
          have h2 : m / 32 ^ k * 32 ^ k = 32 ^ k * (m / 32 ^ k) := Nat.mul_comm _ _
          omega

theorem checksum_length (enc : Bech32Encoding) (hrp values : List Nat) :
    (CreateChecksum enc hrp values).length = 6 := by
  rw [CreateChecksum]
  simp

theorem checksum_digit_lt (enc : Bech32Encoding) (hrp values : List Nat) :
    ∀ x ∈ CreateChecksum enc hrp values, x < 32 := by
  intro x hx
  rw [CreateChecksum] at hx
  simp only [List.mem_map] at hx
  obtain ⟨i, _, hi⟩ := hx
  have h31 : x ≤ 31 := by
    rw [← hi]
    exact Nat.and_le_right
  omega

theorem expandHRP_lt {hrp : List Nat} (hh : ∀ c ∈ hrp, c < 256) :
    ∀ x ∈ ExpandHRP hrp, x < 2 ^ 30 := by
  intro x hx
  rw [ExpandHRP] at hx
  rcases List.mem_append.mp hx with hx | hx
  · rcases List.mem_append.mp hx with hx | hx
    · obtain ⟨c, hc, hcx⟩ := List.mem_map.mp hx
      have h1 : x ≤ c := by
        rw [← hcx, Nat.shiftRight_eq_div_pow]
        exact Nat.div_le_self _ _
      have := hh c hc
      omega
    · simp at hx
      omega
  · obtain ⟨c, hc, hcx⟩ := List.mem_map.mp hx
    have h1 : x ≤ 31 := by
      rw [← hcx]
      exact Nat.and_le_right
    omega

theorem createChecksum_val {hrp values : List Nat} (hh : ∀ c ∈ hrp, c < 256)
    (hv : ∀ v ∈ values, v < 32) :
    wVal (CreateChecksum Bech32Encoding.BECH32M hrp values)
      = PolyMod (ExpandHRP hrp ++ values ++ List.replicate 6 0)
          ^^^ EncodingConstant Bech32Encoding.BECH32M := by
  set m := PolyMod (ExpandHRP hrp ++ values ++ List.replicate 6 0)
      ^^^ EncodingConstant Bech32Encoding.BECH32M with hmdef
  have hZlt : PolyMod (ExpandHRP hrp ++ values ++ List.replicate 6 0) < 2 ^ 30 := by
    apply polyMod_lt _ _ (by norm_num)
    intro x hx
    rcases List.mem_append.mp hx with hx | hx
    · rcases List.mem_append.mp hx with hx | hx
      · exact expandHRP_lt hh x hx
      · have := hv x hx
        omega
    · have := List.eq_of_mem_replicate hx
      omega
  have hmlt : m < 32 ^ 6 := by
    rw [show (32 : Nat) ^ 6 = 2 ^ 30 by norm_num, hmdef]
    exact Nat.xor_lt_two_pow hZlt (by norm_num [EncodingConstant])
  have hbridge : ∀ i ∈ List.range 6,
      (fun i => (m >>> (5 * (5 - i))) &&& 31) i
        = (fun i => m / 32 ^ (6 - 1 - i) % 32) i := by
    intro i hi
    have hi6 : i < 6 := List.mem_range.mp hi
    show (m >>> (5 * (5 - i))) &&& 31 = m / 32 ^ (6 - 1 - i) % 32
    have h31 : (31 : Nat) = 2 ^ 5 - 1 := by norm_num
    rw [h31, Nat.and_pow_two_sub_one_eq_mod, Nat.shiftRight_eq_div_pow]
    have hpow : (2 : Nat) ^ (5 * (5 - i)) = 32 ^ (6 - 1 - i) := by
      rw [show (32 : Nat) = 2 ^ 5 by norm_num, ← Nat.pow_mul]
    rw [hpow]
  rw [CreateChecksum]
  show wVal ((List.range 6).map (fun i => (m >>> (5 * (5 - i))) &&& 31)) = m
  rw [List.map_congr_left hbridge]
  exact wVal_digits 6 m hmlt

theorem polyMod_append_checksum {hrp values : List Nat} (hh : ∀ c ∈ hrp, c < 256)
    (hv : ∀ v ∈ values, v < 32) :
    PolyMod (ExpandHRP hrp
        ++ (values ++ CreateChecksum Bech32Encoding.BECH32M hrp values))
      = EncodingConstant Bech32Encoding.BECH32M := by
  set cs := CreateChecksum Bech32Encoding.BECH32M hrp values with hcsdef
  have hcs32 : ∀ x ∈ cs, x < 32 := checksum_digit_lt _ _ _
  have hcs_len : cs.length = 6 := checksum_length _ _ _
  have h1 : PolyMod (ExpandHRP hrp ++ (values ++ cs))
      = cs.foldl polyModStep ((ExpandHRP hrp ++ values).foldl polyModStep 1) := by
    rw [PolyMod, ← List.append_assoc, List.foldl_append]
  have h2 := polyMod_inject cs ((ExpandHRP hrp ++ values).foldl polyModStep 1)
    hcs32 (by omega)
  have h3 : (List.replicate cs.length 0).foldl polyModStep
        ((ExpandHRP hrp ++ values).foldl polyModStep 1)
      = PolyMod (ExpandHRP hrp ++ values ++ List.replicate 6 0) := by
    rw [hcs_len]
    simp [PolyMod, List.foldl_append]
  rw [h1, h2, h3, createChecksum_val hh hv]
  rw [← Nat.xor_assoc, Nat.xor_self, Nat.zero_xor]

theorem verifyChecksum_create {hrp values : List Nat} (hh : ∀ c ∈ hrp, c < 256)
    (hv : ∀ v ∈ values, v < 32) :
    VerifyChecksum hrp (values ++ CreateChecksum Bech32Encoding.BECH32M hrp values)
      = some Bech32Encoding.BECH32M := by
  rw [VerifyChecksum, polyMod_append_checksum hh hv]
  norm_num [EncodingConstant]

theorem wVal_set_xor {cs : List Nat} (hcs : ∀ x ∈ cs, x < 32) {j w : Nat}
    (hj : j < cs.length) (hw : w < 32) :
    wVal cs ^^^ wVal (cs.set j w)
      = (cs.getD j 0 ^^^ w) * 2 ^ (5 * (cs.length - 1 - j)) := by
  set d := cs.getD j 0 with hddef
  have hdget : d = cs[j] := by
    rw [hddef, List.getD_eq_getElem?_getD, List.getElem?_eq_getElem hj]
    rfl
  have hdrop : cs.drop j = d :: cs.drop (j + 1) := by
    rw [hdget]
    exact (List.getElem_cons_drop cs j hj).symm
  have hcs_split : cs = cs.take j ++ d :: cs.drop (j + 1) := by
    rw [← hdrop, List.take_append_drop]
  have hset_split : cs.set j w = cs.take j ++ w :: cs.drop (j + 1) :=
    List.set_eq_take_cons_drop w hj
  set u := cs.take j with hudef
  set r := cs.drop (j + 1) with hrdef
  have hrlen : r.length = cs.length - 1 - j := by
    rw [hrdef, List.length_drop]
    omega
  have hd32 : d < 32 := hcs d (by rw [hdget]; exact List.getElem_mem hj)
  have hr32 : ∀ x ∈ r, x < 32 := fun x hx => hcs x (by
    rw [hrdef] at hx
    exact List.mem_of_mem_drop hx)
  have hB : wVal r < 2 ^ (5 * r.length) := by
    have := wVal_lt hr32
    rwa [show (32 : Nat) ^ r.length = 2 ^ (5 * r.length) by
      rw [show (32 : Nat) = 2 ^ 5 by norm_num, ← Nat.pow_mul]] at this
  have hval : ∀ x : Nat, wVal (u ++ x :: r)
      = 2 ^ (5 * r.length) * (wVal u * 32 + x) ^^^ wVal r := by
    intro x
    rw [wVal_append, wVal_cons]
    have h32r : (32 : Nat) ^ r.length = 2 ^ (5 * r.length) := by
      rw [show (32 : Nat) = 2 ^ 5 by norm_num, ← Nat.pow_mul]
    rw [List.length_cons, ← add_disjoint_eq_xor hB]
    rw [Nat.pow_succ, h32r]
    ring
  conv_lhs => rw [hset_split, hcs_split, hval d, hval w]
  have hshuffle : ∀ p q B : Nat, (p ^^^ B) ^^^ (q ^^^ B) = p ^^^ q := by
    intro p q B
    apply Nat.eq_of_testBit_eq
    intro i
    rw [Nat.testBit_xor, Nat.testBit_xor, Nat.testBit_xor, Nat.testBit_xor]
    cases p.testBit i <;> cases q.testBit i <;> cases B.testBit i <;> rfl
  rw [hshuffle]
  rw [show cs.length - 1 - j = r.length from hrlen.symm]
  have hmulc : ∀ x : Nat, 2 ^ (5 * r.length) * x = x * 2 ^ (5 * r.length) :=
    fun x => Nat.mul_comm _ _
  rw [hmulc, hmulc, ← xor_mul_pow]
  congr 1
  have hxd : wVal u * 32 + d = 2 ^ 5 * wVal u ^^^ d := by
    calc wVal u * 32 + d = 2 ^ 5 * wVal u + d := by ring
      _ = 2 ^ 5 * wVal u ^^^ d := add_disjoint_eq_xor (by omega) _
  have hxw : wVal u * 32 + w = 2 ^ 5 * wVal u ^^^ w := by
    calc wVal u * 32 + w = 2 ^ 5 * wVal u + w := by ring
      _ = 2 ^ 5 * wVal u ^^^ w := add_disjoint_eq_xor (by omega) _
  rw [hxd, hxw, Nat.xor_comm (2 ^ 5 * wVal u) d, Nat.xor_comm (2 ^ 5 * wVal u) w,
    hshuffle]

theorem xor_cancel_left : ∀ a x y : Nat, a ^^^ x = y → x = a ^^^ y := by
  intro a x y h
  rw [← h, ← Nat.xor_assoc, Nat.xor_self, Nat.zero_xor]

theorem xor_insert_mid : ∀ a b c : Nat, a ^^^ c = (a ^^^ b) ^^^ (b ^^^ c) := by
  intro a b c
  apply Nat.eq_of_testBit_eq
  intro i
  rw [Nat.testBit_xor, Nat.testBit_xor, Nat.testBit_xor, Nat.testBit_xor]
  cases a.testBit i <;> cases b.testBit i <;> cases c.testBit i <;> rfl

theorem small_shift_ne : ∀ e : Fin 32, ∀ p : Fin 6,
    (e : Nat) * 2 ^ (5 * (p : Nat)) ≠ 0x2bc830a2 := by decide

/-- Altering any one of the six checksum groups of a Bech32m-checksummed
payload makes VerifyChecksum report an invalid string: the change flips bits
in a single 5-bit window of the final PolyMod value, which can reach neither
the Bech32m constant nor the Bech32 constant. -/
theorem verifyChecksum_altered {hrp values : List Nat} (hh : ∀ c ∈ hrp, c < 256)
    (hv : ∀ v ∈ values, v < 32) {j w : Nat} (hj : j < 6) (hw : w < 32)
    (hne : w ≠ (CreateChecksum Bech32Encoding.BECH32M hrp values).getD j 0) :
    VerifyChecksum hrp
      (values ++ (CreateChecksum Bech32Encoding.BECH32M hrp values).set j w)
      = none := by
  set cs := CreateChecksum Bech32Encoding.BECH32M hrp values with hcsdef
  have hcs32 : ∀ x ∈ cs, x < 32 := checksum_digit_lt _ _ _
  have hcs_len : cs.length = 6 := checksum_length _ _ _
  have hj6 : j < cs.length := by omega
  set cs2 := cs.set j w with hcs2def
  have hcs232 : ∀ x ∈ cs2, x < 32 := by
    intro x hx
    rcases List.mem_or_eq_of_mem_set hx with hx | hx
    · exact hcs32 x hx
    · omega
  have hcs2len : cs2.length = 6 := by
    rw [hcs2def, List.length_set, hcs_len]
  have hZform : ∀ (l : List Nat), l.length = 6 → (∀ x ∈ l, x < 32) →
      PolyMod (ExpandHRP hrp ++ (values ++ l))
        = (List.replicate 6 0).foldl polyModStep
            ((ExpandHRP hrp ++ values).foldl polyModStep 1) ^^^ wVal l := by
    intro l hl h32
    rw [PolyMod, ← List.append_assoc, List.foldl_append,
      polyMod_inject l _ h32 (by omega), hl]
  have h1 : PolyMod (ExpandHRP hrp ++ (values ++ cs2))
      = PolyMod (ExpandHRP hrp ++ (values ++ cs)) ^^^ (wVal cs ^^^ wVal cs2) := by
    rw [hZform cs hcs_len hcs32, hZform cs2 hcs2len hcs232]
    rw [Nat.xor_assoc]
    congr 1
    rw [← Nat.xor_assoc, Nat.xor_self, Nat.zero_xor]
  have hxorval := wVal_set_xor hcs32 hj6 hw
  have hchk := polyMod_append_checksum hh hv
  have hd32 : cs.getD j 0 < 32 := by
    apply hcs32
    rw [List.getD_eq_getElem?_getD, List.getElem?_eq_getElem hj6]
    exact List.getElem_mem hj6
  have he0 : cs.getD j 0 ^^^ w ≠ 0 := by
    intro h0
    exact hne ((Nat.xor_eq_zero.mp h0).symm)
  have he32 : cs.getD j 0 ^^^ w < 32 :=
    Nat.xor_lt_two_pow (n := 5) (by omega) (by omega)
  have hval : PolyMod (ExpandHRP hrp ++ (values ++ cs2))
      = EncodingConstant Bech32Encoding.BECH32M
        ^^^ ((cs.getD j 0 ^^^ w) * 2 ^ (5 * (6 - 1 - j))) := by
    rw [h1, hchk, hxorval, hcs_len]
  have hne1 : EncodingConstant Bech32Encoding.BECH32M
      ^^^ ((cs.getD j 0 ^^^ w) * 2 ^ (5 * (6 - 1 - j)))
      ≠ EncodingConstant Bech32Encoding.BECH32 := by
    intro heq
    have hx := xor_cancel_left _ _ _ heq
    have hxx : (cs.getD j 0 ^^^ w) * 2 ^ (5 * (6 - 1 - j)) = 0x2bc830a2 := by
      rw [hx]
      decide
    have hp : 6 - 1 - j < 6 := by omega
    exact small_shift_ne ⟨cs.getD j 0 ^^^ w, he32⟩ ⟨6 - 1 - j, hp⟩ hxx
  have hneM : EncodingConstant Bech32Encoding.BECH32M
      ^^^ ((cs.getD j 0 ^^^ w) * 2 ^ (5 * (6 - 1 - j)))
      ≠ EncodingConstant Bech32Encoding.BECH32M := by
    intro heq
    have hx := xor_cancel_left _ _ _ heq
    rw [Nat.xor_self] at hx
    rcases Nat.mul_eq_zero.mp hx with h0 | h0
    · exact he0 h0
    · exact absurd h0 (Nat.pos_iff_ne_zero.mp (Nat.two_pow_pos _))
  rw [VerifyChecksum, hval, if_neg hne1, if_neg hneM]

/-! ### Bech32 string level

C++ std::string values are byte lists.  CHARSET is the 32-character bech32
data alphabet; CHARSET_REV is the 128-entry reverse table of bech32.cpp,
which maps each data character, in either letter case, to its 5-bit value
and everything else to -1 (here: none).  CheckCharacters enforces the
printable range 33..126 and rejects mixed case; Decode splits at the last
separator 49 (the character 1), requires at least six data characters after
it, maps the data part through CHARSET_REV, lower-cases the prefix and
verifies the checksum, with the 90-character limit of bech32.cpp. -/

def CHARSET : List Nat :=
  [113, 112, 122, 114, 121, 57, 120, 56, 103, 102, 50, 116, 118, 100, 119, 48,
   115, 51, 106, 110, 53, 52, 107, 104, 99, 101, 54, 109, 117, 97, 55, 108]

def charsetGet (v : Nat) : Nat := CHARSET.getD v 0

def LowerCase (c : Nat) : Nat := if 65 ≤ c ∧ c ≤ 90 then c - 65 + 97 else c

def CHARSET_REV (c : Nat) : Option Nat :=
  if c < 128 then CHARSET.findIdx? (fun x => x == LowerCase c) else none

def revAll : List Nat → Option (List Nat)
  | [] => some []
  | c :: r =>
    match CHARSET_REV c, revAll r with
    | some v, some vs => some (v :: vs)
    | _, _ => none

def isLowerCh (c : Nat) : Bool := 97 ≤ c && c ≤ 122

def isUpperCh (c : Nat) : Bool := 65 ≤ c && c ≤ 90

def CheckCharacters (s : List Nat) : Bool :=
  s.all (fun c => 33 ≤ c && c ≤ 126) && !(s.any isLowerCh && s.any isUpperCh)

def rfind (s : List Nat) (targ : Nat) : Option Nat :=
  match s with
  | [] => none
  | c :: rest =>
    match rfind rest targ with
    | some i => some (i + 1)
    | none => if c = targ then some 0 else none

def bech32Encode (enc : Bech32Encoding) (hrp values : List Nat) : List Nat :=
  hrp ++ [49] ++ (values ++ CreateChecksum enc hrp values).map charsetGet

def bech32Decode (s : List Nat) : Option (Bech32Encoding × List Nat × List Nat) :=
  if !CheckCharacters s then none
  else if 90 < s.length then none
  else
    match rfind s 49 with
    | none => none
    | some pos =>
      if pos = 0 ∨ s.length < pos + 7 then none
      else
        match revAll (s.drop (pos + 1)) with
        | none => none
        | some values =>
          match VerifyChecksum ((s.take pos).map LowerCase) values with
          | none => none
          | some enc =>
            some (enc, (s.take pos).map LowerCase, values.take (values.length - 6))

theorem charsetGet_lt_range : ∀ v : Fin 32, 33 ≤ charsetGet v ∧ charsetGet v ≤ 126
    ∧ isUpperCh (charsetGet v) = false ∧ charsetGet v ≠ 49 ∧ charsetGet v < 128 := by
  decide

theorem charsetRev_charsetGet : ∀ v : Fin 32,
    CHARSET_REV (charsetGet v) = some v.val := by
  decide

theorem charsetGet_inj : ∀ v v2 : Fin 32, charsetGet v = charsetGet v2 → v = v2 := by
  decide

theorem charsetRev_sound : ∀ c : Fin 128, ∀ v : Nat, CHARSET_REV c.val = some v →
    isUpperCh c.val = true ∨ (v < 32 ∧ c.val = charsetGet v) := by
  decide

theorem revAll_map_charsetGet {l : List Nat} (hl : ∀ v ∈ l, v < 32) :
    revAll (l.map charsetGet) = some l := by
  induction l with
  | nil => rfl
  | cons v r ih =>
    have hv : v < 32 := hl v (List.mem_cons_self v r)
    have hrev : CHARSET_REV (charsetGet v) = some v := charsetRev_charsetGet ⟨v, hv⟩
    rw [List.map_cons, revAll, hrev, ih (fun x hx => hl x (List.mem_cons_of_mem _ hx))]

theorem rfind_append_some {b : List Nat} {t i : Nat} (h : rfind b t = some i)
    (a : List Nat) : rfind (a ++ b) t = some (a.length + i) := by
  induction a with
  | nil => simpa using h
  | cons c r ih =>
    rw [List.cons_append, rfind, ih]
    simp only [List.length_cons]
    congr 1
    omega

theorem rfind_append_none {b : List Nat} {t : Nat} (h : rfind b t = none)
    (a : List Nat) : rfind (a ++ b) t = rfind a t := by
  induction a with
  | nil => simpa using h
  | cons c r ih =>
    rw [List.cons_append, rfind, ih, rfind]

theorem rfind_eq_none {b : List Nat} {t : Nat} (h : t ∉ b) : rfind b t = none := by
  induction b with
  | nil => rfl
  | cons c r ih =>
    rw [rfind, ih (fun hmem => h (List.mem_cons_of_mem _ hmem))]
    rw [if_neg]
    intro hc
    exact h (hc ▸ List.mem_cons_self c r)

theorem rfind_ge_of_mem : ∀ {b : List Nat} {t i : Nat}, i < b.length →
    b.getD i 0 = t → ∃ k, rfind b t = some k ∧ i ≤ k := by
  intro b
  induction b with
  | nil =>
    intro t i hi
    simp at hi
  | cons c r ih =>
    intro t i hi hget
    cases hr : rfind r t with
    | some k =>
      exact ⟨k + 1, by rw [rfind, hr], by
        rcases Nat.eq_zero_or_pos i with h0 | hpos
        · omega
        · obtain ⟨i2, hi2⟩ : ∃ i2, i = i2 + 1 := ⟨i - 1, by omega⟩
          subst hi2
          have hget2 : r.getD i2 0 = t := by simpa using hget
          have hi2lt : i2 < r.length := by simpa using hi
          obtain ⟨k2, hk2, hik2⟩ := ih hi2lt hget2
          rw [hk2] at hr
          cases hr
          omega⟩
    | none =>
      rcases Nat.eq_zero_or_pos i with h0 | hpos
      · subst h0
        have hc : c = t := by simpa using hget
        exact ⟨0, by rw [rfind, hr, if_pos hc], Nat.le_refl 0⟩
      · obtain ⟨i2, hi2⟩ : ∃ i2, i = i2 + 1 := ⟨i - 1, by omega⟩
        subst hi2
        have hget2 : r.getD i2 0 = t := by simpa using hget
        have hi2lt : i2 < r.length := by simpa using hi
        obtain ⟨k2, hk2, _⟩ := ih hi2lt hget2
        rw [hk2] at hr
        cases hr

/-- The human readable part of EBC addresses, the string ebc1 of
ebc_address.cpp, as byte values. -/
def EBC_HRP : List Nat := [101, 98, 99, 49]

theorem bech32_decode_encode {values : List Nat} (hv : ∀ v ∈ values, v < 32)
    (hlen : values.length ≤ 79) :
    bech32Decode (bech32Encode Bech32Encoding.BECH32M EBC_HRP values)
      = some (Bech32Encoding.BECH32M, EBC_HRP, values) := by
  set cs := CreateChecksum Bech32Encoding.BECH32M EBC_HRP values with hcsdef
  have hcs32 : ∀ x ∈ cs, x < 32 := checksum_digit_lt _ _ _
  have hcs_len : cs.length = 6 := checksum_length _ _ _
  have hvc : ∀ v ∈ values ++ cs, v < 32 := by
    intro v hmem
    rcases List.mem_append.mp hmem with h | h
    · exact hv v h
    · exact hcs32 v h
  set tl : List Nat := (values ++ cs).map charsetGet with htldef
  have hs : bech32Encode Bech32Encoding.BECH32M EBC_HRP values
      = (EBC_HRP ++ [49]) ++ tl := by
    rw [bech32Encode, htldef, hcsdef, List.append_assoc]
  set s : List Nat := (EBC_HRP ++ [49]) ++ tl with hsdef
  rw [hs]
  have hslen : s.length = values.length + 11 := by
    rw [hsdef, htldef, List.length_append, List.length_append, List.length_map,
      List.length_append, hcs_len]
    have h1 : EBC_HRP.length = 4 := by decide
    have h2 : ([49] : List Nat).length = 1 := by decide
    omega
  have hmem_tl : ∀ c ∈ tl, 33 ≤ c ∧ c ≤ 126 ∧ isUpperCh c = false ∧ c ≠ 49 := by
    intro c hc
    rw [htldef] at hc
    obtain ⟨v, hvmem, hvc2⟩ := List.mem_map.mp hc
    have hv32 : v < 32 := hvc v hvmem
    have := charsetGet_lt_range ⟨v, hv32⟩
    rw [← hvc2]
    exact ⟨this.1, this.2.1, this.2.2.1, this.2.2.2.1⟩
  have hcc : CheckCharacters s = true := by
    rw [CheckCharacters]
    have hall : s.all (fun c => 33 ≤ c && c ≤ 126) = true := by
      rw [List.all_eq_true]
      intro c hc
      rw [hsdef] at hc
      rcases List.mem_append.mp hc with h | h
      · have : c ∈ ([101, 98, 99, 49, 49] : List Nat) := h
        fin_cases this <;> decide
      · have := hmem_tl c h
        simp only [Bool.and_eq_true, decide_eq_true_eq]
        omega
    have hupper : s.any isUpperCh = false := by
      rw [List.any_eq_false]
      intro c hc
      rw [hsdef] at hc
      rcases List.mem_append.mp hc with h | h
      · have : c ∈ ([101, 98, 99, 49, 49] : List Nat) := h
        fin_cases this <;> decide
      · have := hmem_tl c h
        rw [this.2.2.1]
        exact Bool.false_ne_true
    rw [hall, hupper]
    rfl
  have hrfind : rfind s 49 = some 4 := by
    have hnotin : (49 : Nat) ∉ tl := by
      intro hmem
      exact (hmem_tl 49 hmem).2.2.2 rfl
    rw [hsdef, rfind_append_none (rfind_eq_none hnotin)]
    decide
  have hdrop : s.drop 5 = tl := by
    rw [hsdef]
    have h5 : (EBC_HRP ++ [49]).length = 5 := by decide
    rw [← h5, List.drop_left]
  have htake : s.take 4 = EBC_HRP := by
    rw [hsdef, List.append_assoc]
    have h4 : EBC_HRP.length = 4 := by decide
    rw [← h4, List.take_left]
  have hrevAll : revAll (s.drop 5) = some (values ++ cs) := by
    rw [hdrop, htldef]
    exact revAll_map_charsetGet hvc
  have hmapLower : EBC_HRP.map LowerCase = EBC_HRP := by decide
  have hverify : VerifyChecksum (EBC_HRP.map LowerCase) (values ++ cs)
      = some Bech32Encoding.BECH32M := by
    rw [hmapLower, hcsdef]
    exact verifyChecksum_create (by decide) hv
  have htakeback : (values ++ cs).take ((values ++ cs).length - 6) = values := by
    have h1 : (values ++ cs).length - 6 = values.length := by
      rw [List.length_append, hcs_len]
      omega
    rw [h1]
    exact List.take_left values cs
  rw [bech32Decode, hcc]
  rw [if_neg (by simp)]
  rw [if_neg (by omega)]
  rw [hrfind]
  show (if 4 = 0 ∨ s.length < 4 + 7 then none
    else match revAll (s.drop (4 + 1)) with
      | none => none
      | some values2 =>
        match VerifyChecksum ((s.take 4).map LowerCase) values2 with
        | none => none
        | some enc => some (enc, (s.take 4).map LowerCase,
            values2.take (values2.length - 6))) = _
  rw [if_neg (by omega)]
  show (match revAll (s.drop 5) with
      | none => none
      | some values2 =>
        match VerifyChecksum ((s.take 4).map LowerCase) values2 with
        | none => none
        | some enc => some (enc, (s.take 4).map LowerCase,
            values2.take (values2.length - 6))) = _
  rw [hrevAll, htake]
  show (match VerifyChecksum (EBC_HRP.map LowerCase) (values ++ cs) with
      | none => none
      | some enc => some (enc, EBC_HRP.map LowerCase,
          (values ++ cs).take ((values ++ cs).length - 6))) = _
  rw [hverify]
  show some (Bech32Encoding.BECH32M, EBC_HRP.map LowerCase,
      (values ++ cs).take ((values ++ cs).length - 6)) = _
  rw [hmapLower, htakeback]

theorem revAll_none_of_mem {l : List Nat} {c : Nat} (hmem : c ∈ l)
    (hrev : CHARSET_REV c = none) : revAll l = none := by
  induction l with
  | nil => cases hmem
  | cons x r ih =>
    rw [revAll]
    rcases List.mem_cons.mp hmem with h | h
    · subst h
      rw [hrev]
    · cases hcr : CHARSET_REV x with
      | none => rfl
      | some v => rw [ih h]

theorem revAll_append (a b : List Nat) :
    revAll (a ++ b) = match revAll a, revAll b with
      | some x, some y => some (x ++ y)
      | _, _ => none := by
  induction a with
  | nil =>
    cases hb : revAll b <;> simp [revAll, hb]
  | cons x r ih =>
    rw [List.cons_append, revAll, revAll, ih]
    cases hx : CHARSET_REV x <;> cases hr : revAll r <;> cases hb : revAll b <;> simp


theorem getD_append_right (l1 l2 : List Nat) (n : Nat) (h : l1.length ≤ n) :
    (l1 ++ l2).getD n 0 = l2.getD (n - l1.length) 0 := by
  induction l1 generalizing n with
  | nil => simp
  | cons x r ih =>
    cases n with
    | zero => simp at h
    | succ m =>
      rw [List.cons_append, List.getD_cons_succ, ih m (by simpa using h)]
      congr 1
      simp only [List.length_cons]
      omega

theorem getD_map_charsetGet (l : List Nat) (n : Nat) (h : n < l.length) :
    (l.map charsetGet).getD n 0 = charsetGet (l.getD n 0) := by
  induction l generalizing n with
  | nil => simp at h
  | cons x r ih =>
    cases n with
    | zero => simp
    | succ m =>
      rw [List.map_cons, List.getD_cons_succ, List.getD_cons_succ,
        ih m (by simpa using h)]

theorem getD_set_self (l : List Nat) (n c : Nat) (h : n < l.length) :
    (l.set n c).getD n 0 = c := by
  induction l generalizing n with
  | nil => simp at h
  | cons x r ih =>
    cases n with
    | zero => simp
    | succ m =>
      rw [List.set_cons_succ, List.getD_cons_succ, ih m (by simpa using h)]

theorem getD_mem (l : List Nat) (n : Nat) (h : n < l.length) : l.getD n 0 ∈ l := by
  rw [List.getD_eq_getElem?_getD, List.getElem?_eq_getElem h]
  exact List.getElem_mem h

/-- Altering any of the last six characters (the checksum characters) of an
EBC Bech32m encoding makes bech32 Decode fail, whatever the replacement
character is. -/
theorem bech32_decode_altered {values : List Nat} (hv : ∀ v ∈ values, v < 32)
    (hlen : values.length ≤ 79) {j c : Nat} (hj : j < 6)
    (hne : c ≠ (bech32Encode Bech32Encoding.BECH32M EBC_HRP values).getD
        ((bech32Encode Bech32Encoding.BECH32M EBC_HRP values).length - 6 + j) 0) :
    bech32Decode ((bech32Encode Bech32Encoding.BECH32M EBC_HRP values).set
        ((bech32Encode Bech32Encoding.BECH32M EBC_HRP values).length - 6 + j) c)
      = none := by
  set cs := CreateChecksum Bech32Encoding.BECH32M EBC_HRP values with hcsdef
  have hcs32 : ∀ x ∈ cs, x < 32 := checksum_digit_lt _ _ _
  have hcs_len : cs.length = 6 := checksum_length _ _ _
  have hj6 : j < cs.length := by omega
  set pre : List Nat := (EBC_HRP ++ [49]) ++ values.map charsetGet with hpredef
  have hpre_len : pre.length = values.length + 5 := by
    rw [hpredef, List.length_append, List.length_append, List.length_map]
    have h1 : EBC_HRP.length = 4 := by decide
    have h2 : ([49] : List Nat).length = 1 := by decide
    omega
  have hs : bech32Encode Bech32Encoding.BECH32M EBC_HRP values
      = pre ++ cs.map charsetGet := by
    rw [bech32Encode, hpredef, ← hcsdef, List.map_append]
    simp [List.append_assoc]
  set s : List Nat := pre ++ cs.map charsetGet with hsdef
  have hslen : s.length = values.length + 11 := by
    rw [hsdef, List.length_append, List.length_map, hpre_len, hcs_len]
  have hp : s.length - 6 + j = pre.length + j := by omega
  rw [hs, hp]
  have hjm : j < (cs.map charsetGet).length := by
    rw [List.length_map]
    omega
  have hsetj : s.set (pre.length + j) c = pre ++ (cs.map charsetGet).set j c := by
    rw [hsdef, List.set_append_right _ _ (by omega)]
    congr 2
    omega
  have hold : s.getD (pre.length + j) 0 = charsetGet (cs.getD j 0) := by
    rw [hsdef, getD_append_right pre _ _ (by omega),
      show pre.length + j - pre.length = j by omega,
      getD_map_charsetGet cs j (by omega)]
  rw [hs, hp, hold] at hne
  set s2 : List Nat := s.set (pre.length + j) c with hs2def
  have hs2len : s2.length = values.length + 11 := by
    rw [hs2def, List.length_set, hslen]
  have hgetc : s2.getD (pre.length + j) 0 = c := by
    rw [hs2def]
    exact getD_set_self s _ c (by omega)
  have hcmem : c ∈ s2 := by
    rw [← hgetc]
    exact getD_mem s2 _ (by omega)
  have hs2split : s2 = pre ++ (cs.map charsetGet).set j c := hsetj
  have hmem_s2 : ∀ x ∈ s2, x ∈ pre ∨ x ∈ cs.map charsetGet ∨ x = c := by
    intro x hx
    rw [hs2split] at hx
    rcases List.mem_append.mp hx with h | h
    · exact Or.inl h
    · rcases List.mem_or_eq_of_mem_set h with h | h
      · exact Or.inr (Or.inl h)
      · exact Or.inr (Or.inr h)
  have hmem_pre : ∀ x ∈ pre, 33 ≤ x ∧ x ≤ 126 ∧ isUpperCh x = false := by
    intro x hx
    rw [hpredef] at hx
    rcases List.mem_append.mp hx with h | h
    · have hx5 : x ∈ ([101, 98, 99, 49, 49] : List Nat) := h
      fin_cases hx5 <;> refine ⟨by decide, by decide, by decide⟩
    · obtain ⟨v, hvmem, hvc2⟩ := List.mem_map.mp h
      have hv32 : v < 32 := hv v hvmem
      have := charsetGet_lt_range ⟨v, hv32⟩
      rw [← hvc2]
      exact ⟨this.1, this.2.1, this.2.2.1⟩
  have hmem_csmap : ∀ x ∈ cs.map charsetGet,
      33 ≤ x ∧ x ≤ 126 ∧ isUpperCh x = false ∧ x ≠ 49 := by
    intro x hx
    obtain ⟨v, hvmem, hvc2⟩ := List.mem_map.mp hx
    have hv32 : v < 32 := hcs32 v hvmem
    have := charsetGet_lt_range ⟨v, hv32⟩
    rw [← hvc2]
    exact ⟨this.1, this.2.1, this.2.2.1, this.2.2.2.1⟩
  by_cases hrange : 33 ≤ c ∧ c ≤ 126
  case neg =>
    -- out-of-range replacement: CheckCharacters rejects
    have hcc : CheckCharacters s2 = false := by
      rw [CheckCharacters]
      have hallf : s2.all (fun x => 33 ≤ x && x ≤ 126) = false := by
        rw [List.all_eq_false]
        refine ⟨c, hcmem, ?_⟩
        simp only [Bool.and_eq_true, decide_eq_true_eq]
        omega
      rw [hallf]
      rfl
    rw [bech32Decode, hcc]
    rfl
  case pos =>
  by_cases hupper : isUpperCh c = true
  case pos =>
    -- uppercase replacement: mixed case, CheckCharacters rejects
    have h101 : (101 : Nat) ∈ s2 := by
      rw [hs2split, hpredef]
      apply List.mem_append.mpr
      left
      apply List.mem_append.mpr
      left
      apply List.mem_append.mpr
      left
      decide
    have hlower : s2.any isLowerCh = true := by
      rw [List.any_eq_true]
      exact ⟨101, h101, by decide⟩
    have hupper2 : s2.any isUpperCh = true := by
      rw [List.any_eq_true]
      exact ⟨c, hcmem, hupper⟩
    have hcc : CheckCharacters s2 = false := by
      rw [CheckCharacters, hlower, hupper2]
      simp [Bool.and_false]
    rw [bech32Decode, hcc]
    rfl
  case neg =>
  -- in range and not uppercase: CheckCharacters accepts
  have hcc : CheckCharacters s2 = true := by
    rw [CheckCharacters]
    have hall : s2.all (fun x => 33 ≤ x && x ≤ 126) = true := by
      rw [List.all_eq_true]
      intro x hx
      rcases hmem_s2 x hx with h | h | h
      · have := hmem_pre x h
        simp only [Bool.and_eq_true, decide_eq_true_eq]
        omega
      · have := hmem_csmap x h
        simp only [Bool.and_eq_true, decide_eq_true_eq]
        omega
      · subst h
        simp only [Bool.and_eq_true, decide_eq_true_eq]
        omega
    have hupp : s2.any isUpperCh = false := by
      rw [List.any_eq_false]
      intro x hx
      rcases hmem_s2 x hx with h | h | h
      · rw [(hmem_pre x h).2.2]
        exact Bool.false_ne_true
      · rw [(hmem_csmap x h).2.2.1]
        exact Bool.false_ne_true
      · subst h
        exact hupper
    rw [hall, hupp]
    simp
  by_cases h49 : c = 49
  case pos =>
    -- replacement is the separator: the last separator moves into the
    -- checksum zone and the data part becomes too short
    subst h49
    obtain ⟨k, hk, hkge⟩ := rfind_ge_of_mem (by omega) hgetc
    rw [bech32Decode, hcc]
    rw [if_neg (by simp)]
    rw [if_neg (by omega)]
    rw [hk]
    show (if k = 0 ∨ s2.length < k + 7 then none
      else match revAll (s2.drop (k + 1)) with
        | none => none
        | some values2 =>
          match VerifyChecksum ((s2.take k).map LowerCase) values2 with
          | none => none
          | some enc => some (enc, (s2.take k).map LowerCase,
              values2.take (values2.length - 6))) = none
    rw [if_pos (by omega)]
  case neg =>
  -- the replacement is an ordinary character: the separator search still
  -- lands on position 4 and the checksum check decides
  have htail49 : (49 : Nat) ∉ values.map charsetGet ++ (cs.map charsetGet).set j c := by
    intro hmem
    rcases List.mem_append.mp hmem with h | h
    · obtain ⟨v, hvmem, hvc2⟩ := List.mem_map.mp h
      exact (charsetGet_lt_range ⟨v, hv v hvmem⟩).2.2.2.1 hvc2
    · rcases List.mem_or_eq_of_mem_set h with h | h
      · exact (hmem_csmap 49 h).2.2.2 rfl
      · exact h49 h.symm
  have hs2assoc : s2 = (EBC_HRP ++ [49])
      ++ (values.map charsetGet ++ (cs.map charsetGet).set j c) := by
    rw [hs2split, hpredef, List.append_assoc]
  have hrfind : rfind s2 49 = some 4 := by
    rw [hs2assoc, rfind_append_none (rfind_eq_none htail49)]
    decide
  have hdrop : s2.drop 5 = values.map charsetGet ++ (cs.map charsetGet).set j c := by
    rw [hs2assoc]
    have h5 : (EBC_HRP ++ [49]).length = 5 := by decide
    rw [← h5, List.drop_left]
  have htake : s2.take 4 = EBC_HRP := by
    rw [hs2assoc, List.append_assoc]
    have h4 : EBC_HRP.length = 4 := by decide
    rw [← h4, List.take_left]
  have hmapLower : EBC_HRP.map LowerCase = EBC_HRP := by decide
  rw [bech32Decode, hcc]
  rw [if_neg (by simp)]
  rw [if_neg (by omega)]
  rw [hrfind]
  show (if 4 = 0 ∨ s2.length < 4 + 7 then none
    else match revAll (s2.drop (4 + 1)) with
      | none => none
      | some values2 =>
        match VerifyChecksum ((s2.take 4).map LowerCase) values2 with
        | none => none
        | some enc => some (enc, (s2.take 4).map LowerCase,
            values2.take (values2.length - 6))) = none
  rw [if_neg (by omega)]
  show (match revAll (s2.drop 5) with
      | none => none
      | some values2 =>
        match VerifyChecksum ((s2.take 4).map LowerCase) values2 with
        | none => none
        | some enc => some (enc, (s2.take 4).map LowerCase,
            values2.take (values2.length - 6))) = none
  cases hrev : CHARSET_REV c with
  | none =>
    have hcmem2 : c ∈ s2.drop 5 := by
      rw [hdrop]
      apply List.mem_append.mpr
      right
      exact List.mem_set (cs.map charsetGet) j (by rw [List.length_map]; omega) c
    rw [revAll_none_of_mem hcmem2 hrev]
  | some w =>
    have hc128 : c < 128 := by omega
    have hsound := charsetRev_sound ⟨c, hc128⟩ w hrev
    rcases hsound with hup | ⟨hw32, hcw⟩
    · have hup2 : isUpperCh c = true := hup
      exact absurd hup2 hupper
    · have hcw2 : c = charsetGet w := hcw
      have hwne : w ≠ cs.getD j 0 := by
        intro hweq
        apply hne
        rw [← hweq, hcw2]
      have hset_map : (cs.map charsetGet).set j c = (cs.set j w).map charsetGet := by
        rw [hcw2, ← List.map_set]
      have hrevtail : revAll (s2.drop 5) = some (values ++ cs.set j w) := by
        rw [hdrop, hset_map, ← List.map_append]
        apply revAll_map_charsetGet
        intro v hmem
        rcases List.mem_append.mp hmem with h | h
        · exact hv v h
        · rcases List.mem_or_eq_of_mem_set h with h | h
          · exact hcs32 v h
          · omega
      rw [hrevtail, htake, hmapLower]
      have hvfy : VerifyChecksum EBC_HRP (values ++ cs.set j w) = none := by
        rw [hcsdef]
        exact verifyChecksum_altered (by decide) hv hj hw32 (by rw [← hcsdef]; exact hwne)
      show (match VerifyChecksum EBC_HRP (values ++ cs.set j w) with
          | none => none
          | some enc => some (enc, EBC_HRP,
              (values ++ cs.set j w).take ((values ++ cs.set j w).length - 6))) = none
      rw [hvfy]

/-! ### The pq::PQAlgorithm enumeration (crypto/pq/pq_keys.h)

A C++ scoped enumeration with enumerators DILITHIUM3, FALCON512, UNKNOWN and
no explicit values, so the underlying values are 0, 1, 2.  FromString and
Deserialize static_cast raw bytes into this type, so the model is the
underlying integer. -/

namespace pq

def DILITHIUM3 : Nat := 0

def FALCON512 : Nat := 1

def UNKNOWN : Nat := 2

/-- GetOQSAlgorithmName returns a liboqs algorithm name for the two known
algorithms and nullptr otherwise; only its success or failure matters here. -/
def GetOQSAlgorithmName (algo : Nat) : Bool :=
  algo = DILITHIUM3 ∨ algo = FALCON512

end pq

/-! ### EBCAddress (ebc/ebc_address.h, ebc/ebc_address.cpp) -/

def EBC_PUBKEY_HASH_SIZE : Nat := 20

def EBC_SCRIPT_HASH_SIZE : Nat := 32

namespace EBCAddressVersion

def PQ_PUBKEY : Nat := 0

def PQ_SCRIPT : Nat := 1

def PQ_WITNESS_V0 : Nat := 2

def PQ_WITNESS_V1 : Nat := 3

end EBCAddressVersion

structure EBCAddress where
  m_version : Nat
  m_data : List Nat
  m_algorithm : Nat
deriving DecidableEq, Repr

/-- The default-constructed EBCAddress: version PQ_PUBKEY, empty data,
algorithm UNKNOWN.  This is the single invalid sentinel every failure path
of FromString returns. -/
def EBCAddress.invalid : EBCAddress :=
  { m_version := EBCAddressVersion.PQ_PUBKEY, m_data := [],
    m_algorithm := pq.UNKNOWN }

def EBCAddress.IsValid (a : EBCAddress) : Bool :=
  if a.m_algorithm = pq.UNKNOWN then false
  else if a.m_version = EBCAddressVersion.PQ_PUBKEY then
    a.m_data.length = EBC_PUBKEY_HASH_SIZE
  else if a.m_version = EBCAddressVersion.PQ_SCRIPT then
    a.m_data.length = EBC_SCRIPT_HASH_SIZE
  else if a.m_version = EBCAddressVersion.PQ_WITNESS_V0 then
    a.m_data.length = EBC_PUBKEY_HASH_SIZE ∨ a.m_data.length = EBC_SCRIPT_HASH_SIZE
  else if a.m_version = EBCAddressVersion.PQ_WITNESS_V1 then
    a.m_data.length = EBC_SCRIPT_HASH_SIZE
  else false

/-- The byte payload assembled by ToString before the 8-to-5 bit conversion:
the version byte, the algorithm byte, then the address data.  The casts to
uint8_t are the mod 256 reductions. -/
def EBCAddress.payload (a : EBCAddress) : List Nat :=
  a.m_version % 256 :: a.m_algorithm % 256 :: a.m_data

def EBCAddress.ToString (a : EBCAddress) : List Nat :=
  if ¬a.IsValid then []
  else
    match convertBits 8 5 true a.payload with
    | none => []
    | some conv => bech32Encode Bech32Encoding.BECH32M EBC_HRP conv

def EBCAddress.FromString (str : List Nat) : EBCAddress :=
  match bech32Decode str with
  | none => EBCAddress.invalid
  | some (enc, hrp, d5) =>
    if enc ≠ Bech32Encoding.BECH32M ∨ hrp ≠ EBC_HRP then EBCAddress.invalid
    else if d5 = [] then EBCAddress.invalid
    else
      match convertBits 5 8 false d5 with
      | none => EBCAddress.invalid
      | some data =>
        if data.length < 2 then EBCAddress.invalid
        else
          let addr : EBCAddress :=
            { m_version := data.getD 0 0, m_data := data.drop 2,
              m_algorithm := data.getD 1 0 }
          if addr.IsValid then addr else EBCAddress.invalid

/-! ### CScript values (script/script.h)

A CScript is a byte vector; streaming an opcode appends its byte, and
streaming a data vector of size below OP_PUSHDATA1 appends the size byte
followed by the data (ebc_address.cpp only pushes 20 and 32 byte hashes, but
the operator is modelled in full). -/

def OP_DUP : Nat := 0x76
def OP_HASH160 : Nat := 0xa9
def OP_HASH256 : Nat := 0xaa
def OP_EQUAL : Nat := 0x87
def OP_EQUALVERIFY : Nat := 0x88
def OP_PQCHECKSIG : Nat := 0xbb
def OP_PQCHECKSIGVERIFY : Nat := 0xbc
def OP_PUSHDATA1 : Nat := 0x4c
def OP_PUSHDATA2 : Nat := 0x4d
def OP_PUSHDATA4 : Nat := 0x4e

def scriptPushData (d : List Nat) : List Nat :=
  if d.length < OP_PUSHDATA1 then d.length :: d
  else if d.length ≤ 0xff then OP_PUSHDATA1 :: d.length :: d
  else if d.length ≤ 0xffff then
    OP_PUSHDATA2 :: d.length % 256 :: d.length / 256 % 256 :: d
  else
    OP_PUSHDATA4 :: d.length % 256 :: d.length / 256 % 256
      :: d.length / 65536 % 256 :: d.length / 16777216 % 256 :: d

namespace ebc_address

/-- P2PQPKH locking script: OP_DUP OP_HASH160 pubkey-hash OP_EQUALVERIFY
OP_PQCHECKSIG.  The algo argument is accepted but not used by the C++
function. -/
def CreateP2PQPKHScript (pubkey_hash : List Nat) (algo : Nat) : List Nat :=
  [OP_DUP, OP_HASH160] ++ scriptPushData pubkey_hash ++ [OP_EQUALVERIFY, OP_PQCHECKSIG]

/-- P2PQSH locking script: OP_HASH256 script-hash OP_EQUAL.  The algo
argument is accepted but not used by the C++ function. -/
def CreateP2PQSHScript (script_hash : List Nat) (algo : Nat) : List Nat :=
  [OP_HASH256] ++ scriptPushData script_hash ++ [OP_EQUAL]

end ebc_address

/-- GetScript: the PQ_SCRIPT branch copies m_data into a zero-initialised
32-byte uint256 buffer before building the script; witness versions return
the empty script (to be implemented in the C++). -/
def EBCAddress.GetScript (a : EBCAddress) : List Nat :=
  if ¬a.IsValid then []
  else if a.m_version = EBCAddressVersion.PQ_PUBKEY then
    ebc_address.CreateP2PQPKHScript a.m_data a.m_algorithm
  else if a.m_version = EBCAddressVersion.PQ_SCRIPT then
    ebc_address.CreateP2PQSHScript ((a.m_data ++ List.replicate 32 0).take 32)
      a.m_algorithm
  else if a.m_version = EBCAddressVersion.PQ_WITNESS_V0
      ∨ a.m_version = EBCAddressVersion.PQ_WITNESS_V1 then []
  else []

theorem EBCAddress.isValid_iff (a : EBCAddress) : a.IsValid = true ↔
    a.m_algorithm ≠ pq.UNKNOWN ∧
    ((a.m_version = 0 ∧ a.m_data.length = 20)
     ∨ (a.m_version = 1 ∧ a.m_data.length = 32)
     ∨ (a.m_version = 2 ∧ (a.m_data.length = 20 ∨ a.m_data.length = 32))
     ∨ (a.m_version = 3 ∧ a.m_data.length = 32)) := by
  rw [EBCAddress.IsValid]
  split_ifs with h1 h2 h3 h4 h5 <;>
    simp_all [pq.UNKNOWN, EBCAddressVersion.PQ_PUBKEY, EBCAddressVersion.PQ_SCRIPT,
      EBCAddressVersion.PQ_WITNESS_V0, EBCAddressVersion.PQ_WITNESS_V1,
      EBC_PUBKEY_HASH_SIZE, EBC_SCRIPT_HASH_SIZE]

theorem EBCAddress.valid_version_lt {a : EBCAddress} (h : a.IsValid = true) :
    a.m_version < 4 := by
  rcases (EBCAddress.isValid_iff a).mp h with ⟨-, h | h | h | h⟩ <;> omega

theorem EBCAddress.valid_length {a : EBCAddress} (h : a.IsValid = true) :
    a.m_data.length = 20 ∨ a.m_data.length = 32 := by
  rcases (EBCAddress.isValid_iff a).mp h with ⟨-, h | h | h | h⟩
  · exact Or.inl h.2
  · exact Or.inr h.2
  · exact h.2
  · exact Or.inr h.2

/-- The 5-bit groups produced by ToString for a valid byte-bounded address:
the conversion succeeds, the groups are in range and few enough for the
90-character bech32 limit, and converting back recovers the payload. -/
theorem EBCAddress.toString_groups {v : EBCAddress} (hvalid : v.IsValid = true)
    (halgo : v.m_algorithm < 256) (hdata : ∀ b ∈ v.m_data, b < 256) :
    ∃ gs, convertBits 8 5 true v.payload = some gs
      ∧ (∀ g ∈ gs, g < 32) ∧ gs.length ≤ 79 ∧ gs ≠ []
      ∧ convertBits 5 8 false gs = some v.payload
      ∧ v.ToString = bech32Encode Bech32Encoding.BECH32M EBC_HRP gs := by
  have hpay : ∀ b ∈ v.payload, b < 256 := by
    intro b hb
    rw [EBCAddress.payload] at hb
    rcases List.mem_cons.mp hb with h | hb
    · subst h
      exact Nat.mod_lt _ (by norm_num)
    rcases List.mem_cons.mp hb with h | hb
    · subst h
      exact Nat.mod_lt _ (by norm_num)
    · exact hdata b hb
  obtain ⟨gs, hconv, hlt, hlen, hback⟩ := convertBits_round v.payload hpay
  have hpaylen : v.payload.length = v.m_data.length + 2 := by
    rw [EBCAddress.payload]
    simp
  have hlen79 : gs.length ≤ 79 := by
    rcases EBCAddress.valid_length hvalid with h | h <;>
      
      rw [hpaylen, h] at hlen <;> omega
  have hne : gs ≠ [] := by
    intro h0
    rw [h0] at hback
    have h1 : convertBits 5 8 false [] = some [] := by rfl
    rw [h1] at hback
    have h2 : ([] : List Nat) = v.payload := Option.some.inj hback
    have h3 : v.payload.length = 0 := by rw [← h2]; rfl
    rw [hpaylen] at h3
    omega
  refine ⟨gs, hconv, hlt, hlen79, hne, hback, ?_⟩
  rw [EBCAddress.ToString, if_neg (by rw [hvalid]; simp), hconv]

/-- Decode of Encode for EBC addresses: FromString recovers any valid
byte-bounded address from its ToString encoding. -/
theorem EBCAddress.fromString_toString {v : EBCAddress} (hvalid : v.IsValid = true)
    (halgo : v.m_algorithm < 256) (hdata : ∀ b ∈ v.m_data, b < 256) :
    EBCAddress.FromString v.ToString = v := by
  obtain ⟨gs, hconv, hlt, hlen79, hne, hback, hstr⟩ :=
    EBCAddress.toString_groups hvalid halgo hdata
  rw [hstr, EBCAddress.FromString, bech32_decode_encode hlt hlen79]
  show (if Bech32Encoding.BECH32M ≠ Bech32Encoding.BECH32M ∨ EBC_HRP ≠ EBC_HRP
    then EBCAddress.invalid
    else if gs = [] then EBCAddress.invalid
    else match convertBits 5 8 false gs with
      | none => EBCAddress.invalid
      | some data =>
        if data.length < 2 then EBCAddress.invalid
        else
          let addr : EBCAddress :=
            { m_version := data.getD 0 0, m_data := data.drop 2,
              m_algorithm := data.getD 1 0 }
          if addr.IsValid then addr else EBCAddress.invalid) = v
  rw [if_neg (by simp), if_neg hne, hback]
  have hpaylen : v.payload.length = v.m_data.length + 2 := by
    rw [EBCAddress.payload]
    simp
  show (if v.payload.length < 2 then EBCAddress.invalid
    else
      let addr : EBCAddress :=
        { m_version := v.payload.getD 0 0, m_data := v.payload.drop 2,
          m_algorithm := v.payload.getD 1 0 }
      if addr.IsValid then addr else EBCAddress.invalid) = v
  rw [if_neg (by omega)]
  have hv0 : v.payload.getD 0 0 = v.m_version := by
    rw [EBCAddress.payload]
    show v.m_version % 256 = v.m_version
    have := EBCAddress.valid_version_lt hvalid
    omega
  have hv1 : v.payload.getD 1 0 = v.m_algorithm := by
    rw [EBCAddress.payload]
    show v.m_algorithm % 256 = v.m_algorithm
    omega
  have hv2 : v.payload.drop 2 = v.m_data := by
    rw [EBCAddress.payload]
    rfl
  show (if (⟨v.payload.getD 0 0, v.payload.drop 2, v.payload.getD 1 0⟩ :
        EBCAddress).IsValid
      then (⟨v.payload.getD 0 0, v.payload.drop 2, v.payload.getD 1 0⟩ :
        EBCAddress)
      else EBCAddress.invalid) = v
  have haddr : (⟨v.payload.getD 0 0, v.payload.drop 2, v.payload.getD 1 0⟩ :
      EBCAddress) = v := by
    rw [hv0, hv1, hv2]
  rw [haddr]
  simp [hvalid]

/-- Altering any checksum character of a ToString encoding decodes to the
invalid sentinel address. -/
theorem EBCAddress.fromString_altered {v : EBCAddress} (hvalid : v.IsValid = true)
    (halgo : v.m_algorithm < 256) (hdata : ∀ b ∈ v.m_data, b < 256)
    {j c : Nat} (hj : j < 6)
    (hc : c ≠ v.ToString.getD (v.ToString.length - 6 + j) 0) :
    EBCAddress.FromString (v.ToString.set (v.ToString.length - 6 + j) c)
      = EBCAddress.invalid := by
  obtain ⟨gs, hconv, hlt, hlen79, hne, hback, hstr⟩ :=
    EBCAddress.toString_groups hvalid halgo hdata
  rw [hstr] at hc ⊢
  rw [EBCAddress.FromString, bech32_decode_altered hlt hlen79 hj hc]

/-! ### pq keys and signatures (crypto/pq/pq_keys.h, pq_keys.cpp) -/

/-- Modelled from the spec: the liboqs library is external to this
repository, so its behaviour is an oracle parameter.  new_ok algo records
whether OQS_SIG_new succeeds for the algorithm; the three length fields are
the length_public_key, length_secret_key and length_signature members of a
successfully created OQS_SIG; sign algo hash sk is the resized signature
buffer when OQS_SIG_sign returns OQS_SUCCESS and none otherwise; verify
algo hash sig pk is whether OQS_SIG_verify returns OQS_SUCCESS. -/
structure OQSOracle where
  new_ok : Nat → Bool
  length_public_key : Nat → Nat
  length_secret_key : Nat → Nat
  length_signature : Nat → Nat
  sign : Nat → List Nat → List Nat → Option (List Nat)
  verify : Nat → List Nat → List Nat → List Nat → Bool

namespace pq

structure PQPubKey where
  m_data : List Nat
  m_algorithm : Nat
deriving DecidableEq, Repr

/-- The default-constructed PQPubKey: empty data, algorithm UNKNOWN. -/
def PQPubKey.default : PQPubKey :=
  { m_data := [], m_algorithm := UNKNOWN }

def PQPubKey.GetPubKeySize (L : OQSOracle) (algo : Nat) : Nat :=
  if GetOQSAlgorithmName algo = false then 0
  else if L.new_ok algo = false then 0
  else L.length_public_key algo

def PQPubKey.IsValid (k : PQPubKey) (L : OQSOracle) : Bool :=
  if k.m_algorithm = UNKNOWN then false
  else
    let expected_size := PQPubKey.GetPubKeySize L k.m_algorithm
    decide (0 < expected_size) && decide (k.m_data.length = expected_size)

/-- The two-argument PQPubKey constructor: member-initialises, then clears
itself to the default state if the result is not valid. -/
def PQPubKey.construct (L : OQSOracle) (data : List Nat) (algo : Nat) : PQPubKey :=
  let k : PQPubKey := { m_data := data, m_algorithm := algo }
  if k.IsValid L then k else PQPubKey.default

structure PQSignature where
  m_data : List Nat
  m_algorithm : Nat
deriving DecidableEq, Repr

/-- The default-constructed PQSignature: empty data, algorithm UNKNOWN. -/
def PQSignature.default : PQSignature :=
  { m_data := [], m_algorithm := UNKNOWN }

def PQSignature.GetSignatureSize (L : OQSOracle) (algo : Nat) : Nat :=
  if GetOQSAlgorithmName algo = false then 0
  else if L.new_ok algo = false then 0
  else L.length_signature algo

def PQSignature.IsValid (s : PQSignature) (L : OQSOracle) : Bool :=
  if s.m_algorithm = UNKNOWN then false
  else if s.m_data = [] then false
  else
    let max_size := PQSignature.GetSignatureSize L s.m_algorithm
    decide (0 < max_size) && decide (s.m_data.length ≤ max_size)

/-- The two-argument PQSignature constructor: member-initialises, then
clears itself to the default state if the result is not valid. -/
def PQSignature.construct (L : OQSOracle) (data : List Nat) (algo : Nat) :
    PQSignature :=
  let s : PQSignature := { m_data := data, m_algorithm := algo }
  if s.IsValid L then s else PQSignature.default

def PQSignature.Verify (s : PQSignature) (L : OQSOracle) (hash : List Nat)
    (pubkey : PQPubKey) : Bool :=
  if s.IsValid L = false then false
  else if pubkey.IsValid L = false then false
  else if s.m_algorithm ≠ pubkey.m_algorithm then false
  else if GetOQSAlgorithmName s.m_algorithm = false then false
  else if L.new_ok s.m_algorithm = false then false
  else L.verify s.m_algorithm hash s.m_data pubkey.m_data

/-- Serialize: the algorithm byte, then the data size as a 4-byte
little-endian uint32_t, then the signature bytes. -/
def PQSignature.Serialize (s : PQSignature) : List Nat :=
  s.m_algorithm % 256
    :: s.m_data.length % 2 ^ 32 % 256
    :: s.m_data.length % 2 ^ 32 / 2 ^ 8 % 256
    :: s.m_data.length % 2 ^ 32 / 2 ^ 16 % 256
    :: s.m_data.length % 2 ^ 32 / 2 ^ 24 % 256
    :: s.m_data

/-- Deserialize: data[0] is static_cast to the algorithm, data[1..4] is the
little-endian signature length; the or of the shifted bytes is a plain sum
because the byte ranges are disjoint. -/
def PQSignature.Deserialize (L : OQSOracle) (data : List Nat) : PQSignature :=
  if data.length < 5 then PQSignature.default
  else
    let algo := data.getD 0 0
    if algo = UNKNOWN then PQSignature.default
    else
      let sig_len := data.getD 1 0 ||| data.getD 2 0 <<< 8
        ||| data.getD 3 0 <<< 16 ||| data.getD 4 0 <<< 24
      if data.length ≠ 5 + sig_len then PQSignature.default
      else PQSignature.construct L (data.drop 5) algo

structure PQPrivKey where
  m_data : List Nat
  m_algorithm : Nat
  m_sig_ctx : Bool
deriving DecidableEq, Repr

/-- The default-constructed PQPrivKey: empty data, algorithm UNKNOWN, null
signature context. -/
def PQPrivKey.default : PQPrivKey :=
  { m_data := [], m_algorithm := UNKNOWN, m_sig_ctx := false }

def PQPrivKey.GetPrivKeySize (L : OQSOracle) (algo : Nat) : Nat :=
  if GetOQSAlgorithmName algo = false then 0
  else if L.new_ok algo = false then 0
  else L.length_secret_key algo

def PQPrivKey.IsValid (k : PQPrivKey) (L : OQSOracle) : Bool :=
  if k.m_algorithm = UNKNOWN then false
  else
    let expected_size := PQPrivKey.GetPrivKeySize L k.m_algorithm
    decide (0 < expected_size) && decide (k.m_data.length = expected_size)

/-- Clear: memory_cleanse and clear the data vector, set the algorithm to
UNKNOWN, reset the signature context. -/
def PQPrivKey.Clear (k : PQPrivKey) : PQPrivKey :=
  { m_data := [], m_algorithm := UNKNOWN, m_sig_ctx := false }

/-- The move constructor, returning (constructed object, moved-from
object): the data vector and context are stolen (the moved-from vector and
unique_ptr are left empty and null), and the source algorithm is explicitly
set to UNKNOWN. -/
def PQPrivKey.moveConstruct (other : PQPrivKey) : PQPrivKey × PQPrivKey :=
  ({ m_data := other.m_data, m_algorithm := other.m_algorithm,
     m_sig_ctx := other.m_sig_ctx },
   { m_data := [], m_algorithm := UNKNOWN, m_sig_ctx := false })

/-- The move assignment for this ≠ &other, returning (assigned-to object,
moved-from object): Clear the target, steal the members, set the source
algorithm to UNKNOWN. -/
def PQPrivKey.moveAssign (target other : PQPrivKey) : PQPrivKey × PQPrivKey :=
  ({ m_data := other.m_data, m_algorithm := other.m_algorithm,
     m_sig_ctx := other.m_sig_ctx },
   { m_data := [], m_algorithm := UNKNOWN, m_sig_ctx := false })

def PQPrivKey.Sign (k : PQPrivKey) (L : OQSOracle) (hash : List Nat) :
    List Nat :=
  if k.IsValid L = false then []
  else if GetOQSAlgorithmName k.m_algorithm = false then []
  else if L.new_ok k.m_algorithm = false then []
  else
    match L.sign k.m_algorithm hash k.m_data with
    | none => []
    | some signature => signature

end pq

/-! ### Consensus phase schedule (spec 4.5) and CEBCParams (chainparams_ebc.cpp) -/

namespace EBCPhase

def PRE_ACTIVATION : Nat := 0

def GRACE_DUAL_SIG : Nat := 1

def PQ_ONLY : Nat := 2

def SWEEP_ELIGIBLE : Nat := 3

def SWEEP_COMPLETE : Nat := 4

def RECLAIM_WINDOW : Nat := 5

end EBCPhase

/-- Modelled from the spec: no phase function appears in the repository
sources, so this is the 4.5 state machine verbatim.  PRE_ACTIVATION while
the activation height is unset or not reached; GRACE_DUAL_SIG for the
graceDurationBlocks after activation; PQ_ONLY until activation plus
sweepDurationBlocks; SWEEP_ELIGIBLE from there while the sweep has not
been executed; once the sweep transaction set is finalized at
sweepCompleteHeight, SWEEP_COMPLETE, and RECLAIM_WINDOW from
reclaimStartHeight on.  The two event heights are parameters because the
sweep is an on-chain event, constrained in the theorems to respect the
schedule (sweep completion not before sweep eligibility). -/
def PhaseOf (activationHeight : Option Nat) (graceDurationBlocks : Nat)
    (sweepDurationBlocks : Nat) (sweepCompleteHeight : Option Nat)
    (reclaimStartHeight : Nat) (h : Nat) : Nat :=
  match activationHeight with
  | none => EBCPhase.PRE_ACTIVATION
  | some a =>
    if h < a then EBCPhase.PRE_ACTIVATION
    else if h < a + graceDurationBlocks then EBCPhase.GRACE_DUAL_SIG
    else if h < a + sweepDurationBlocks then EBCPhase.PQ_ONLY
    else
      match sweepCompleteHeight with
      | none => EBCPhase.SWEEP_ELIGIBLE
      | some c =>
        if h < c then EBCPhase.SWEEP_ELIGIBLE
        else if h < reclaimStartHeight then EBCPhase.SWEEP_COMPLETE
        else EBCPhase.RECLAIM_WINDOW

namespace CEBCParams

def nEBCActivationHeight : Nat := 0

def nGracePeriodBlocks : Nat := 4320

def nWhiteKnightSweepHeight : Nat := 25920

def nEmergencyCouncilSunsetHeight : Nat := 52560

end CEBCParams

/-! ### Helper lemmas for the pq layer -/

theorem pq.PQPubKey.pubkey_isValid_spec (L : OQSOracle) (k : pq.PQPubKey) :
    k.IsValid L = true ↔ k.m_algorithm ≠ pq.UNKNOWN
      ∧ 0 < pq.PQPubKey.GetPubKeySize L k.m_algorithm
      ∧ k.m_data.length = pq.PQPubKey.GetPubKeySize L k.m_algorithm := by
  simp only [pq.PQPubKey.IsValid]
  split_ifs with h
  · simp [h]
  · simp [h]

theorem pq.PQSignature.sig_isValid_spec (L : OQSOracle) (s : pq.PQSignature) :
    s.IsValid L = true ↔ s.m_algorithm ≠ pq.UNKNOWN ∧ s.m_data ≠ []
      ∧ 0 < pq.PQSignature.GetSignatureSize L s.m_algorithm
      ∧ s.m_data.length ≤ pq.PQSignature.GetSignatureSize L s.m_algorithm := by
  simp only [pq.PQSignature.IsValid]
  split_ifs with h1 h2
  · simp [h1]
  · simp [h1, h2]
  · simp [h1, h2]

theorem pq.PQPubKey.pubkey_construct_cases (L : OQSOracle) (data : List Nat) (algo : Nat) :
    (pq.PQPubKey.construct L data algo = ⟨data, algo⟩
      ∧ (⟨data, algo⟩ : pq.PQPubKey).IsValid L = true)
    ∨ (pq.PQPubKey.construct L data algo = pq.PQPubKey.default
      ∧ (⟨data, algo⟩ : pq.PQPubKey).IsValid L = false) := by
  simp only [pq.PQPubKey.construct]
  by_cases h : (⟨data, algo⟩ : pq.PQPubKey).IsValid L = true
  · left
    exact ⟨by rw [if_pos h], h⟩
  · right
    exact ⟨by rw [if_neg h], by simp at h; exact h⟩

theorem pq.PQSignature.sig_construct_cases (L : OQSOracle) (data : List Nat) (algo : Nat) :
    (pq.PQSignature.construct L data algo = ⟨data, algo⟩
      ∧ (⟨data, algo⟩ : pq.PQSignature).IsValid L = true)
    ∨ (pq.PQSignature.construct L data algo = pq.PQSignature.default
      ∧ (⟨data, algo⟩ : pq.PQSignature).IsValid L = false) := by
  simp only [pq.PQSignature.construct]
  by_cases h : (⟨data, algo⟩ : pq.PQSignature).IsValid L = true
  · left
    exact ⟨by rw [if_pos h], h⟩
  · right
    exact ⟨by rw [if_neg h], by simp at h; exact h⟩

theorem pq.PQSignature.isValid_unsupported (L : OQSOracle) (s : pq.PQSignature)
    (h : pq.GetOQSAlgorithmName s.m_algorithm = false) :
    s.IsValid L = false := by
  simp only [pq.PQSignature.IsValid]
  split_ifs with h1 h2
  · rfl
  · rfl
  · rw [pq.PQSignature.GetSignatureSize, if_pos h]
    simp

theorem pq.PQSignature.construct_unsupported (L : OQSOracle) (d : List Nat)
    (algo : Nat) (h : pq.GetOQSAlgorithmName algo = false) :
    pq.PQSignature.construct L d algo = pq.PQSignature.default := by
  simp only [pq.PQSignature.construct]
  rw [if_neg (by rw [pq.PQSignature.isValid_unsupported L ⟨d, algo⟩ h]; simp)]

theorem pq.PQSignature.default_isValid (L : OQSOracle) :
    pq.PQSignature.default.IsValid L = false := rfl

theorem pq.PQSignature.default_verify (L : OQSOracle) (m : List Nat)
    (k : pq.PQPubKey) : pq.PQSignature.default.Verify L m k = false := rfl

/-! ### Claim theorems for the pq layer -/

/-- C3: for every signature s, public key k and message hash m, if the
algorithm tag of s differs from the algorithm tag of k then
PQSignature::Verify(m, k) on s returns false, regardless of the raw
signature and key bytes and of the liboqs oracle. -/
theorem claim_C3 (L : OQSOracle) (s : pq.PQSignature) (k : pq.PQPubKey)
    (m : List Nat) (hne : s.m_algorithm ≠ k.m_algorithm) :
    s.Verify L m k = false := by
  rw [pq.PQSignature.Verify]
  split_ifs with h1 h2 <;> rfl

theorem claim_C3_witness :
    pq.PQSignature.Verify ⟨[1], pq.DILITHIUM3⟩
      ⟨fun _ => true, fun _ => 1952, fun _ => 4032, fun _ => 3309,
       fun _ _ _ => none, fun _ _ _ _ => true⟩
      [0] ⟨[2], pq.FALCON512⟩ = false :=
  claim_C3 _ ⟨[1], pq.DILITHIUM3⟩ ⟨[2], pq.FALCON512⟩ [0] (by decide)

/-- C8: every PQPubKey and PQSignature built by the two-argument
constructor either satisfies its algorithm's length constraint and is
valid, or is the canonical default object (empty data, algorithm UNKNOWN)
and is invalid; the default-constructed objects are invalid. -/
theorem claim_C8 (L : OQSOracle) (data : List Nat) (algo : Nat) :
    (((pq.PQPubKey.construct L data algo).IsValid L = true
        ∧ (pq.PQPubKey.construct L data algo).m_algorithm ≠ pq.UNKNOWN
        ∧ 0 < pq.PQPubKey.GetPubKeySize L
            (pq.PQPubKey.construct L data algo).m_algorithm
        ∧ (pq.PQPubKey.construct L data algo).m_data.length
            = pq.PQPubKey.GetPubKeySize L
                (pq.PQPubKey.construct L data algo).m_algorithm)
      ∨ (pq.PQPubKey.construct L data algo = pq.PQPubKey.default
        ∧ (pq.PQPubKey.construct L data algo).IsValid L = false
        ∧ (pq.PQPubKey.construct L data algo).m_data = []
        ∧ (pq.PQPubKey.construct L data algo).m_algorithm = pq.UNKNOWN))
    ∧ (((pq.PQSignature.construct L data algo).IsValid L = true
        ∧ (pq.PQSignature.construct L data algo).m_algorithm ≠ pq.UNKNOWN
        ∧ (pq.PQSignature.construct L data algo).m_data ≠ []
        ∧ (pq.PQSignature.construct L data algo).m_data.length
            ≤ pq.PQSignature.GetSignatureSize L
                (pq.PQSignature.construct L data algo).m_algorithm)
      ∨ (pq.PQSignature.construct L data algo = pq.PQSignature.default
        ∧ (pq.PQSignature.construct L data algo).IsValid L = false
        ∧ (pq.PQSignature.construct L data algo).m_data = []
        ∧ (pq.PQSignature.construct L data algo).m_algorithm = pq.UNKNOWN))
    ∧ pq.PQPubKey.default.IsValid L = false
    ∧ pq.PQSignature.default.IsValid L = false := by
  refine ⟨?_, ?_, rfl, rfl⟩
  · rcases pq.PQPubKey.pubkey_construct_cases L data algo with ⟨hc, hv⟩ | ⟨hc, hv⟩
    · left
      rw [hc]
      obtain ⟨ha, hpos, hlen⟩ := (pq.PQPubKey.pubkey_isValid_spec L ⟨data, algo⟩).mp hv
      exact ⟨hv, ha, hpos, hlen⟩
    · right
      rw [hc]
      exact ⟨rfl, rfl, rfl, rfl⟩
  · rcases pq.PQSignature.sig_construct_cases L data algo with ⟨hc, hv⟩ | ⟨hc, hv⟩
    · left
      rw [hc]
      obtain ⟨ha, hne, hpos, hlen⟩ :=
        (pq.PQSignature.sig_isValid_spec L ⟨data, algo⟩).mp hv
      exact ⟨hv, ha, hne, hlen⟩
    · right
      rw [hc]
      exact ⟨rfl, rfl, rfl, rfl⟩

/-- C9: PQSignature::Deserialize is total and fail-closed: it returns
either the canonical default (invalid) signature or a valid one; a buffer
shorter than 5 bytes, an unsupported algorithm tag, or a length prefix
inconsistent with the buffer size each yield the default object, which
is invalid and fails Verify for every hash and key. -/
theorem claim_C9 (L : OQSOracle) (data : List Nat) :
    (pq.PQSignature.Deserialize L data = pq.PQSignature.default
      ∨ (pq.PQSignature.Deserialize L data).IsValid L = true)
    ∧ (data.length < 5 →
        pq.PQSignature.Deserialize L data = pq.PQSignature.default)
    ∧ (pq.GetOQSAlgorithmName (data.getD 0 0) = false →
        pq.PQSignature.Deserialize L data = pq.PQSignature.default)
    ∧ (5 ≤ data.length →
        data.length ≠ 5 + (data.getD 1 0 ||| data.getD 2 0 <<< 8
          ||| data.getD 3 0 <<< 16 ||| data.getD 4 0 <<< 24) →
        pq.PQSignature.Deserialize L data = pq.PQSignature.default)
    ∧ pq.PQSignature.default.IsValid L = false
    ∧ (∀ m k, pq.PQSignature.default.Verify L m k = false) := by
  refine ⟨?_, ?_, ?_, ?_, rfl, fun m k => rfl⟩
  · simp only [pq.PQSignature.Deserialize]
    split_ifs with h1 h2 h3
    · exact Or.inl rfl
    · exact Or.inl rfl
    · exact Or.inl rfl
    · rcases pq.PQSignature.sig_construct_cases L (data.drop 5) (data.getD 0 0) with
        ⟨hc, hv⟩ | ⟨hc, hv⟩
      · right
        rw [hc]
        exact hv
      · exact Or.inl hc
  · intro h
    rw [pq.PQSignature.Deserialize, if_pos h]
  · intro hname
    simp only [pq.PQSignature.Deserialize]
    split_ifs with h1 h2 h3 <;>
      first
        | rfl
        | exact pq.PQSignature.construct_unsupported L _ _ hname
  · intro h5 hmm
    simp only [pq.PQSignature.Deserialize]
    rw [if_neg (by omega)]
    split_ifs with h2 h3 <;>
      first
        | rfl
        | exact absurd hmm (by assumption)

theorem claim_C9_witness :
    pq.PQSignature.Deserialize
      ⟨fun _ => true, fun _ => 1952, fun _ => 4032, fun _ => 3309,
       fun _ _ _ => none, fun _ _ _ _ => true⟩ [0, 1, 2] = pq.PQSignature.default :=
  (claim_C9 _ [0, 1, 2]).2.1 (by decide)

/-- C10: a PQPrivKey that has been moved from (by move construction or
move assignment) or cleared is in the canonical invalid state: algorithm
UNKNOWN, empty data, null context, IsValid false, and Sign returns the
empty vector. -/
theorem claim_C10 (L : OQSOracle) (k target : pq.PQPrivKey) (m : List Nat) :
    ((pq.PQPrivKey.moveConstruct k).2 = pq.PQPrivKey.default
      ∧ (pq.PQPrivKey.moveConstruct k).2.m_algorithm = pq.UNKNOWN
      ∧ (pq.PQPrivKey.moveConstruct k).2.m_data = []
      ∧ (pq.PQPrivKey.moveConstruct k).2.m_sig_ctx = false
      ∧ (pq.PQPrivKey.moveConstruct k).2.IsValid L = false
      ∧ (pq.PQPrivKey.moveConstruct k).2.Sign L m = [])
    ∧ ((pq.PQPrivKey.moveAssign target k).2 = pq.PQPrivKey.default
      ∧ (pq.PQPrivKey.moveAssign target k).2.m_algorithm = pq.UNKNOWN
      ∧ (pq.PQPrivKey.moveAssign target k).2.m_data = []
      ∧ (pq.PQPrivKey.moveAssign target k).2.m_sig_ctx = false
      ∧ (pq.PQPrivKey.moveAssign target k).2.IsValid L = false
      ∧ (pq.PQPrivKey.moveAssign target k).2.Sign L m = [])
    ∧ (k.Clear = pq.PQPrivKey.default
      ∧ k.Clear.m_algorithm = pq.UNKNOWN
      ∧ k.Clear.m_data = []
      ∧ k.Clear.m_sig_ctx = false
      ∧ k.Clear.IsValid L = false
      ∧ k.Clear.Sign L m = []) :=
  ⟨⟨rfl, rfl, rfl, rfl, rfl, rfl⟩,
   ⟨rfl, rfl, rfl, rfl, rfl, rfl⟩,
   ⟨rfl, rfl, rfl, rfl, rfl, rfl⟩⟩

/-! ### Claim theorems for the address, script and phase layers -/

theorem EBCAddress.getScript_of_valid (a : EBCAddress) (h : a.IsValid = true) :
    a.GetScript = if a.m_version = EBCAddressVersion.PQ_PUBKEY then
        ebc_address.CreateP2PQPKHScript a.m_data a.m_algorithm
      else if a.m_version = EBCAddressVersion.PQ_SCRIPT then
        ebc_address.CreateP2PQSHScript ((a.m_data ++ List.replicate 32 0).take 32)
          a.m_algorithm
      else if a.m_version = EBCAddressVersion.PQ_WITNESS_V0
          ∨ a.m_version = EBCAddressVersion.PQ_WITNESS_V1 then []
      else [] := by
  rw [EBCAddress.GetScript, if_neg (by rw [h]; simp)]

/-- C1 (counterexample): two valid addresses identical except for their
algorithm field — DILITHIUM3 versus FALCON512 — produce the same locking
script under GetScript, so the script does not bind the algorithm. -/
theorem claim_C1_counterexample :
    (⟨EBCAddressVersion.PQ_PUBKEY, List.replicate 20 7,
        pq.DILITHIUM3⟩ : EBCAddress).IsValid = true
    ∧ (⟨EBCAddressVersion.PQ_PUBKEY, List.replicate 20 7,
        pq.FALCON512⟩ : EBCAddress).IsValid = true
    ∧ pq.DILITHIUM3 ≠ pq.FALCON512
    ∧ (⟨EBCAddressVersion.PQ_PUBKEY, List.replicate 20 7,
        pq.DILITHIUM3⟩ : EBCAddress).GetScript
      = (⟨EBCAddressVersion.PQ_PUBKEY, List.replicate 20 7,
          pq.FALCON512⟩ : EBCAddress).GetScript
    ∧ ebc_address.CreateP2PQPKHScript (List.replicate 20 7) pq.DILITHIUM3
      = ebc_address.CreateP2PQPKHScript (List.replicate 20 7) pq.FALCON512
    ∧ ebc_address.CreateP2PQSHScript (List.replicate 32 9) pq.DILITHIUM3
      = ebc_address.CreateP2PQSHScript (List.replicate 32 9) pq.FALCON512 := by
  refine ⟨by decide, by decide, by decide, ?_, rfl, rfl⟩
  rfl

/-- C1 (amended): GetScript does not depend on the algorithm field — two
valid addresses with the same version and data have the same locking
script, and the two script builders ignore their algorithm argument. -/
theorem claim_C1 (v w : EBCAddress) (hver : v.m_version = w.m_version)
    (hdata : v.m_data = w.m_data) (h1 : v.IsValid = true)
    (h2 : w.IsValid = true) :
    v.GetScript = w.GetScript
    ∧ (∀ hsh a1 a2, ebc_address.CreateP2PQPKHScript hsh a1
        = ebc_address.CreateP2PQPKHScript hsh a2)
    ∧ (∀ hsh a1 a2, ebc_address.CreateP2PQSHScript hsh a1
        = ebc_address.CreateP2PQSHScript hsh a2) := by
  refine ⟨?_, fun hsh a1 a2 => rfl, fun hsh a1 a2 => rfl⟩
  rw [EBCAddress.getScript_of_valid v h1, EBCAddress.getScript_of_valid w h2,
    hver, hdata]
  rfl

theorem claim_C1_witness :
    (⟨EBCAddressVersion.PQ_PUBKEY, List.replicate 20 7,
        pq.DILITHIUM3⟩ : EBCAddress).GetScript
      = (⟨EBCAddressVersion.PQ_PUBKEY, List.replicate 20 7,
          pq.FALCON512⟩ : EBCAddress).GetScript :=
  (claim_C1 ⟨EBCAddressVersion.PQ_PUBKEY, List.replicate 20 7, pq.DILITHIUM3⟩
    ⟨EBCAddressVersion.PQ_PUBKEY, List.replicate 20 7, pq.FALCON512⟩
    rfl rfl (by decide) (by decide)).1

/-- C2 (counterexample): the string encoding of an address whose algorithm
byte is 3 — not a recognized tag, GetOQSAlgorithmName fails on it — decodes
under FromString to a populated address that passes IsValid, not to the
invalid sentinel, because IsValid only rejects the UNKNOWN (2) byte. -/
theorem claim_C2_counterexample :
    EBCAddress.FromString (EBCAddress.ToString
        ⟨EBCAddressVersion.PQ_PUBKEY, List.replicate 20 0, 3⟩)
      = ⟨EBCAddressVersion.PQ_PUBKEY, List.replicate 20 0, 3⟩
    ∧ (⟨EBCAddressVersion.PQ_PUBKEY, List.replicate 20 0, 3⟩
        : EBCAddress).IsValid = true
    ∧ pq.GetOQSAlgorithmName 3 = false
    ∧ (3 : Nat) ≠ pq.DILITHIUM3 ∧ (3 : Nat) ≠ pq.FALCON512
    ∧ (⟨EBCAddressVersion.PQ_PUBKEY, List.replicate 20 0, 3⟩ : EBCAddress)
        ≠ EBCAddress.invalid := by
  refine ⟨by decide, by decide, by decide, by decide, by decide, by decide⟩

/-- C2 (amended): FromString is fail-closed up to the algorithm check —
every input either maps to the canonical invalid sentinel or to an address
that passed every structural check of IsValid, whose algorithm byte is
merely known not to be UNKNOWN; it is never a partially populated
address, but unrecognized algorithm bytes other than 2 are accepted. -/
theorem claim_C2 (str : List Nat) :
    EBCAddress.FromString str = EBCAddress.invalid
    ∨ ((EBCAddress.FromString str).IsValid = true
        ∧ (EBCAddress.FromString str).m_algorithm ≠ pq.UNKNOWN) := by
  rw [EBCAddress.FromString]
  rcases bech32Decode str with _ | ⟨enc, hrp, d5⟩
  · exact Or.inl rfl
  · dsimp only
    by_cases h1 : enc ≠ Bech32Encoding.BECH32M ∨ hrp ≠ EBC_HRP
    · rw [if_pos h1]
      exact Or.inl rfl
    · rw [if_neg h1]
      by_cases h2 : d5 = []
      · rw [if_pos h2]
        exact Or.inl rfl
      · rw [if_neg h2]
        rcases convertBits 5 8 false d5 with _ | data
        · exact Or.inl rfl
        · dsimp only
          by_cases h3 : data.length < 2
          · rw [if_pos h3]
            exact Or.inl rfl
          · rw [if_neg h3]
            by_cases h4 : (⟨data.getD 0 0, data.drop 2, data.getD 1 0⟩
                : EBCAddress).IsValid = true
            · rw [if_pos h4]
              exact Or.inr ⟨h4, ((EBCAddress.isValid_iff _).mp h4).1⟩
            · rw [if_neg h4]
              exact Or.inl rfl

/-- C4: for every valid byte-bounded address v, FromString (ToString v)
recovers v and the result is valid; and altering any one of the six
checksum characters of the encoding makes FromString return the invalid
sentinel. -/
theorem claim_C4 (v : EBCAddress) (hvalid : v.IsValid = true)
    (halgo : v.m_algorithm < 256) (hdata : ∀ b ∈ v.m_data, b < 256) :
    (EBCAddress.FromString v.ToString = v
      ∧ (EBCAddress.FromString v.ToString).IsValid = true)
    ∧ ∀ j c, j < 6 → c ≠ v.ToString.getD (v.ToString.length - 6 + j) 0 →
        EBCAddress.FromString (v.ToString.set (v.ToString.length - 6 + j) c)
          = EBCAddress.invalid := by
  have hrt := EBCAddress.fromString_toString hvalid halgo hdata
  refine ⟨⟨hrt, by rw [hrt]; exact hvalid⟩, ?_⟩
  intro j c hj hc
  exact EBCAddress.fromString_altered hvalid halgo hdata hj hc

theorem claim_C4_witness :
    EBCAddress.FromString (EBCAddress.ToString
        ⟨EBCAddressVersion.PQ_PUBKEY, List.replicate 20 7, pq.DILITHIUM3⟩)
      = ⟨EBCAddressVersion.PQ_PUBKEY, List.replicate 20 7, pq.DILITHIUM3⟩ :=
  (claim_C4 ⟨EBCAddressVersion.PQ_PUBKEY, List.replicate 20 7, pq.DILITHIUM3⟩
    (by decide) (by decide) (by decide)).1.1

/-- C7 (counterexample): a valid witness-version address maps under
GetScript to the empty script, not to a non-empty canonical template. -/
theorem claim_C7_counterexample :
    (⟨EBCAddressVersion.PQ_WITNESS_V0, List.replicate 20 5,
        pq.DILITHIUM3⟩ : EBCAddress).IsValid = true
    ∧ (⟨EBCAddressVersion.PQ_WITNESS_V0, List.replicate 20 5,
        pq.DILITHIUM3⟩ : EBCAddress).GetScript = []
    ∧ (⟨EBCAddressVersion.PQ_WITNESS_V1, List.replicate 32 5,
        pq.DILITHIUM3⟩ : EBCAddress).IsValid = true
    ∧ (⟨EBCAddressVersion.PQ_WITNESS_V1, List.replicate 32 5,
        pq.DILITHIUM3⟩ : EBCAddress).GetScript = [] := by
  refine ⟨by decide, rfl, by decide, rfl⟩

/-- C7 (amended): GetScript is pure and total over valid addresses and
yields the canonical non-empty key-hash template for PQ_PUBKEY and the
canonical non-empty script-hash template for PQ_SCRIPT, but the witness
versions map to the empty script. -/
theorem claim_C7 (v : EBCAddress) (hvalid : v.IsValid = true) :
    (v.m_version = EBCAddressVersion.PQ_PUBKEY →
      v.GetScript = [OP_DUP, OP_HASH160, 20] ++ v.m_data
          ++ [OP_EQUALVERIFY, OP_PQCHECKSIG]
        ∧ v.GetScript ≠ [])
    ∧ (v.m_version = EBCAddressVersion.PQ_SCRIPT →
      v.GetScript = [OP_HASH256, 32] ++ v.m_data ++ [OP_EQUAL]
        ∧ v.GetScript ≠ [])
    ∧ ((v.m_version = EBCAddressVersion.PQ_WITNESS_V0
        ∨ v.m_version = EBCAddressVersion.PQ_WITNESS_V1) →
      v.GetScript = []) := by
  obtain ⟨halg, hcases⟩ := (EBCAddress.isValid_iff v).mp hvalid
  refine ⟨?_, ?_, ?_⟩
  · intro hv
    have hv0 : v.m_version = 0 := hv
    have hlen : v.m_data.length = 20 := by
      rcases hcases with ⟨h, hl⟩ | ⟨h, hl⟩ | ⟨h, hl⟩ | ⟨h, hl⟩ <;> omega
    have heq : v.GetScript = [OP_DUP, OP_HASH160, 20] ++ v.m_data
        ++ [OP_EQUALVERIFY, OP_PQCHECKSIG] := by
      rw [EBCAddress.getScript_of_valid v hvalid, if_pos hv,
        ebc_address.CreateP2PQPKHScript, scriptPushData,
        if_pos (by rw [hlen]; decide), hlen]
      simp
    exact ⟨heq, by rw [heq]; simp⟩
  · intro hv
    have hv1 : v.m_version = 1 := hv
    have hlen : v.m_data.length = 32 := by
      rcases hcases with ⟨h, hl⟩ | ⟨h, hl⟩ | ⟨h, hl⟩ | ⟨h, hl⟩ <;> omega
    have htake : (v.m_data ++ List.replicate 32 0).take 32 = v.m_data :=
      List.take_left' hlen
    have heq : v.GetScript = [OP_HASH256, 32] ++ v.m_data ++ [OP_EQUAL] := by
      rw [EBCAddress.getScript_of_valid v hvalid,
        if_neg (by rw [hv]; decide), if_pos hv,
        ebc_address.CreateP2PQSHScript, htake, scriptPushData,
        if_pos (by rw [hlen]; decide), hlen]
      simp
    exact ⟨heq, by rw [heq]; simp⟩
  · intro hv
    have hne0 : ¬v.m_version = EBCAddressVersion.PQ_PUBKEY := by
      rcases hv with hv | hv <;> rw [hv] <;> decide
    have hne1 : ¬v.m_version = EBCAddressVersion.PQ_SCRIPT := by
      rcases hv with hv | hv <;> rw [hv] <;> decide
    rw [EBCAddress.getScript_of_valid v hvalid, if_neg hne0, if_neg hne1,
      if_pos hv]

theorem claim_C7_witness :
    (⟨EBCAddressVersion.PQ_SCRIPT, List.replicate 32 9,
        pq.DILITHIUM3⟩ : EBCAddress).GetScript
      = [OP_HASH256, 32] ++ List.replicate 32 9 ++ [OP_EQUAL]
    ∧ (⟨EBCAddressVersion.PQ_SCRIPT, List.replicate 32 9,
        pq.DILITHIUM3⟩ : EBCAddress).GetScript ≠ [] :=
  (claim_C7 ⟨EBCAddressVersion.PQ_SCRIPT, List.replicate 32 9,
    pq.DILITHIUM3⟩ (by decide)).2.1 (by decide)

/-- C6: the consensus phase is a pure, single-valued function of chain
height for fixed activation height, durations and sweep event heights, and
it is monotonically non-decreasing in height across the ordered sequence
PRE_ACTIVATION, GRACE_DUAL_SIG, PQ_ONLY, SWEEP_ELIGIBLE, SWEEP_COMPLETE,
RECLAIM_WINDOW; it never takes a value outside that sequence. -/
theorem claim_C6 (a g s c r : Nat) (hgs : g ≤ s) (hc : a + s ≤ c)
    (hr : c ≤ r) :
    (∀ h1 h2, h1 ≤ h2 →
      PhaseOf (some a) g s (some c) r h1 ≤ PhaseOf (some a) g s (some c) r h2)
    ∧ (∀ h p1 p2, PhaseOf (some a) g s (some c) r h = p1 →
        PhaseOf (some a) g s (some c) r h = p2 → p1 = p2)
    ∧ (∀ h, PhaseOf (some a) g s (some c) r h ≤ EBCPhase.RECLAIM_WINDOW) := by
  have key : ∀ h : Nat, PhaseOf (some a) g s (some c) r h =
      if h < a then 0 else if h < a + g then 1 else if h < a + s then 2
      else if h < c then 3 else if h < r then 4 else 5 := fun h => rfl
  refine ⟨?_, ?_, ?_⟩
  · intro h1 h2 hle
    rw [key h1, key h2]
    split_ifs <;> omega
  · intro h p1 p2 e1 e2
    exact e1.symm.trans e2
  · intro h
    rw [key h]
    show _ ≤ 5
    split_ifs <;> omega

theorem claim_C6_witness :
    PhaseOf (some CEBCParams.nEBCActivationHeight) CEBCParams.nGracePeriodBlocks
      CEBCParams.nWhiteKnightSweepHeight (some CEBCParams.nWhiteKnightSweepHeight)
      CEBCParams.nEmergencyCouncilSunsetHeight 2000
    ≤ PhaseOf (some CEBCParams.nEBCActivationHeight) CEBCParams.nGracePeriodBlocks
      CEBCParams.nWhiteKnightSweepHeight (some CEBCParams.nWhiteKnightSweepHeight)
      CEBCParams.nEmergencyCouncilSunsetHeight 60000 :=
  (claim_C6 CEBCParams.nEBCActivationHeight CEBCParams.nGracePeriodBlocks
    CEBCParams.nWhiteKnightSweepHeight CEBCParams.nWhiteKnightSweepHeight
    CEBCParams.nEmergencyCouncilSunsetHeight (by decide) (by decide)
    (by decide)).1 2000 60000 (by decide)

end EBC
